import Mathlib

/-!
# Verification of the matching engine of `video-gif-pair-cleaner`

Shallow embedding of the name-matching core of the repository's two
Python files, `src/main.py` and `src/upgraded.py`:

* the name normalizer `extract_core_name`,
* the `difflib.SequenceMatcher` ratio used as sequence-similarity signal,
* the strict (weighted-blend) scorer and selector `find_best_video_match`,
* the relaxed (max-of-signals) scorer and selector
  `find_videos_by_content_similarity`,
* the strict-then-relaxed composite selection used by the pairing loop.

Names are modelled as `List Char`.  Character classes (`\w`, `\s`)
and `str.lower` are modelled exactly on the characters this development
mentions: the ASCII range, plus `U+0130` (`İ`, whose Python lowercase
mapping *expands* to `i` followed by the combining dot `U+0307` — the
case that defeats idempotence of the normalizer).  Other Unicode
characters are modelled as non-word fixed points, and theorems that
quantify over all inputs carry an explicit ASCII-domain hypothesis where
the program's full-Unicode behavior would differ.  Python float
arithmetic is modelled exactly over `ℚ`.  Filesystem plumbing
(directory listing, path joining, deletion) is outside the embedding:
a selector takes the list of candidate file names and returns the
matched file name instead of a joined path.
-/

set_option maxRecDepth 8000

/-- Python's whitespace class `\s` (ASCII part): space, tab, newline,
carriage return, vertical tab, form feed. -/
def pyIsSpace (c : Char) : Bool :=
  c.toNat == 32 || c.toNat == 9 || c.toNat == 10 || c.toNat == 13 ||
  c.toNat == 11 || c.toNat == 12

/-- Python's word class `\w` on the modelled domain: ASCII letters,
digits and underscore, plus the uppercase letter `U+0130` (`İ`).  Note
`_` *is* a word character: `re.sub(r'[^\w\s]', ' ', s)` keeps it.
(Python's `\w` is full Unicode; other non-ASCII word characters are
outside the modelled domain.) -/
def pyIsWord (c : Char) : Bool :=
  (65 ≤ c.toNat && c.toNat ≤ 90) || (97 ≤ c.toNat && c.toNat ≤ 122) ||
  (48 ≤ c.toNat && c.toNat ≤ 57) || c.toNat == 95 || c.toNat == 304

/-- The single-character part of `str.lower`: the ASCII case map. -/
def lowerChar (c : Char) : Char :=
  if 65 ≤ c.toNat && c.toNat ≤ 90 then Char.ofNat (c.toNat + 32) else c

/-- `str.lower()` on one character.  On `U+0130` (`İ`) Python's lowercase
mapping *expands*: `'İ'.lower() == 'i' + U+0307` (combining dot above), a
two-character result.  Elsewhere on the modelled domain the mapping is
the ASCII case map. -/
def lowerExp (c : Char) : List Char :=
  if c.toNat = 304 then [Char.ofNat 105, Char.ofNat 775] else [lowerChar c]

/-- `str.lower()` on a whole name. -/
def lowerL (s : List Char) : List Char := s.flatMap lowerExp

/-- `re.sub(r'[^\w\s]', ' ', s)`: every character that is neither a word
character nor whitespace becomes a space. -/
def specialsToSpace (s : List Char) : List Char :=
  s.map (fun c => if pyIsWord c || pyIsSpace c then c else ' ')

/-- Worker for `re.sub(r'\s+', ' ', s)`; the flag records whether we are
inside a whitespace run whose replacement space was already emitted. -/
def collapseGo : Bool → List Char → List Char
  | _, [] => []
  | inRun, c :: cs =>
    if pyIsSpace c then
      (if inRun then collapseGo true cs else ' ' :: collapseGo true cs)
    else c :: collapseGo false cs

/-- `re.sub(r'\s+', ' ', s)`: each whitespace run becomes one space. -/
def collapseWs (s : List Char) : List Char := collapseGo false s

/-- Python `str.strip()` (ASCII whitespace). -/
def pyStrip (s : List Char) : List Char :=
  ((s.dropWhile pyIsSpace).reverse.dropWhile pyIsSpace).reverse

/-- Emit one maximal word run (accumulated in reverse order): it is
replaced by `repl` exactly when its lowercasing is one of `terms`.
A match of `\b(t1|...|tn)\b` must start and end at word boundaries, and
the `ti` consist of word characters only, so the matched span is always
a maximal word run equal (case-insensitively) to some `ti`. -/
def emitRun (terms : List (List Char)) (repl acc : List Char) : List Char :=
  if acc = [] then []
  else if lowerL acc.reverse ∈ terms then repl else acc.reverse

/-- Worker for the junk-term removal
`re.sub(r'\b(t1|...|tn)\b', repl, s, flags=re.IGNORECASE)`:
`acc` is the current (reversed) partial word run. -/
def dejunkAux (terms : List (List Char)) (repl : List Char) :
    List Char → List Char → List Char
  | acc, [] => emitRun terms repl acc
  | acc, c :: cs =>
    if pyIsWord c then dejunkAux terms repl (c :: acc) cs
    else emitRun terms repl acc ++ c :: dejunkAux terms repl [] cs

/-- Junk-term removal: `main.py` replaces with `''`, `upgraded.py` with `' '`. -/
def dejunk (terms : List (List Char)) (repl : List Char) (s : List Char) : List Char :=
  dejunkAux terms repl [] s

/-- The maximal word runs of a string (for stating junk-removal lemmas). -/
def runsAux : List Char → List Char → List (List Char)
  | acc, [] => if acc = [] then [] else [acc.reverse]
  | acc, c :: cs =>
    if pyIsWord c then runsAux (c :: acc) cs
    else if acc = [] then runsAux [] cs else acc.reverse :: runsAux [] cs

/-- Maximal word runs of a string. -/
def wordRuns (s : List Char) : List (List Char) := runsAux [] s

/-- Scan for the closing `]` of a non-greedy `\[.*?\]` match starting at the
current `[`: the span may contain neither `]` (non-greedy: the first closer
wins) nor a newline (`.` does not match `\n`).  Returns the remainder after
the closing bracket. -/
def findCloseSq : List Char → Option (List Char)
  | [] => none
  | c :: cs =>
    if c == ']' then some cs else if c == '\n' then none else findCloseSq cs

theorem findCloseSq_length : ∀ (s r : List Char), findCloseSq s = some r → r.length < s.length := by
  intro s
  induction s with
  | nil => intro r h; simp [findCloseSq] at h
  | cons c cs ih =>
    intro r h
    rw [findCloseSq] at h
    by_cases h1 : c == ']'
    · rw [if_pos h1] at h
      cases h
      simp
    · rw [if_neg h1] at h
      by_cases h2 : c == '\n'
      · rw [if_pos h2] at h; cases h
      · rw [if_neg h2] at h
        exact Nat.lt_trans (ih r h) (Nat.lt_succ_self _)

/-- `re.sub(r'\[.*?\]', '', s)` of `main.py` line 14: remove each
square-bracketed group (parentheses are *not* special here). -/
def stripSqBrackets : List Char → List Char
  | [] => []
  | c :: cs =>
    if c == '[' then
      match h : findCloseSq cs with
      | some rest => stripSqBrackets rest
      | none => c :: stripSqBrackets cs
    else c :: stripSqBrackets cs
termination_by s => s.length
decreasing_by
  · exact Nat.lt_trans (findCloseSq_length _ _ h) (Nat.lt_succ_self _)
  · exact Nat.lt_succ_self _
  · exact Nat.lt_succ_self _

/-- Scan for the closer of `[\[\(].*?[\]\)]`: the first `]` *or* `)` ends the
group; no newline may intervene. -/
def findCloseBr : List Char → Option (List Char)
  | [] => none
  | c :: cs =>
    if c == ']' || c == ')' then some cs
    else if c == '\n' then none else findCloseBr cs

theorem findCloseBr_length : ∀ (s r : List Char), findCloseBr s = some r → r.length < s.length := by
  intro s
  induction s with
  | nil => intro r h; simp [findCloseBr] at h
  | cons c cs ih =>
    intro r h
    rw [findCloseBr] at h
    by_cases h1 : (c == ']' || c == ')')
    · rw [if_pos h1] at h
      cases h
      simp
    · rw [if_neg h1] at h
      by_cases h2 : c == '\n'
      · rw [if_pos h2] at h; cases h
      · rw [if_neg h2] at h
        exact Nat.lt_trans (ih r h) (Nat.lt_succ_self _)

/-- `re.sub(r'[\[\(].*?[\]\)]', ' ', s)` of `upgraded.py` line 54: remove
each bracketed *or* parenthesized group (even mismatched pairs such as
`[...)`), replacing it with a single space. -/
def stripBrackets2 : List Char → List Char
  | [] => []
  | c :: cs =>
    if c == '[' || c == '(' then
      match h : findCloseBr cs with
      | some rest => ' ' :: stripBrackets2 rest
      | none => c :: stripBrackets2 cs
    else c :: stripBrackets2 cs
termination_by s => s.length
decreasing_by
  · exact Nat.lt_trans (findCloseBr_length _ _ h) (Nat.lt_succ_self _)
  · exact Nat.lt_succ_self _
  · exact Nat.lt_succ_self _

/-- `re.sub(r'\.(e1|...|ek)$', '', name, flags=re.IGNORECASE)`: strip one
trailing `.ei`.  Because of the `$` anchor a match is a suffix `.ei` of the
lowercased name, and no two alternatives can both be such a suffix (an `ei`
contains no dot), so searching the alternatives in order is faithful. -/
def stripExt (exts : List (List Char)) (s : List Char) : List Char :=
  match exts.find? (fun e => ('.' :: e).isSuffixOf (lowerL s)) with
  | some e => s.take (s.length - (e.length + 1))
  | none => s

/-- `os.path.splitext(name)[0]` for a bare file name: cut at the last dot,
unless every character before that dot is itself a dot. -/
def splitextBase (s : List Char) : List Char :=
  match s.reverse.findIdx? (fun c => c == '.') with
  | none => s
  | some k =>
    if (s.take (s.length - 1 - k)).all (fun c => c == '.') then s
    else s.take (s.length - 1 - k)

/-- Python `str.replace('.gifs', '')`: remove every non-overlapping
occurrence, scanning left to right (case-sensitively). -/
def replaceDotGifs : List Char → List Char
  | [] => []
  | c :: cs =>
    if ['.', 'g', 'i', 'f', 's'].isPrefixOf (c :: cs) then replaceDotGifs (cs.drop 4)
    else c :: replaceDotGifs cs
termination_by s => s.length
decreasing_by
  · simp only [List.length_drop, List.length_cons]
    omega
  · exact Nat.lt_succ_self _

/-- Python `str.split()` with no argument: the maximal runs of
non-whitespace characters. -/
def splitWsAux : List Char → List Char → List (List Char)
  | acc, [] => if acc = [] then [] else [acc.reverse]
  | acc, c :: cs =>
    if pyIsSpace c then
      (if acc = [] then splitWsAux [] cs else acc.reverse :: splitWsAux [] cs)
    else splitWsAux (c :: acc) cs

/-- Python `str.split()`. -/
def splitWs (s : List Char) : List (List Char) := splitWsAux [] s

/-- Python's substring test `a in b` (true whenever `a` is empty). -/
def containsSub (a b : List Char) : Bool := b.tails.any (fun t => a.isPrefixOf t)

/-- `re.sub(r'\s+', '', s)`: delete all whitespace. -/
def noSpace (s : List Char) : List Char := s.filter (fun c => !pyIsSpace c)

/-!
## `difflib.SequenceMatcher`

`similarity_score` in both files is
`SequenceMatcher(None, a, b).ratio()`.  `ratio` sums the sizes of the
matching blocks found by the recursive Ratcliff–Obershelp procedure
`find_longest_match` and returns `2*M/T` (`1.0` when `T = 0`).
`find_longest_match` is the dynamic program below; positions of `b`
holding a *popular* element (the autojunk heuristic, active when
`len(b) >= 200`) never participate in a match.
-/

/-- One row of the `j2len` dynamic program of `find_longest_match`:
`prev` is the previous row shifted right by one (so that the head is the
entry for `j-1`). -/
def lmRow (ai : Char) (pop : List Char) : List Char → List Nat → List Nat
  | [], _ => []
  | bj :: bs, prev =>
    (if bj == ai && !pop.contains bj then prev.headD 0 + 1 else 0) ::
      lmRow ai pop bs prev.tail

/-- Fold the best block over one row: a new block is taken only when its
size is *strictly* larger (`if k > bestsize`), so the earliest maximum in
scan order wins; the block ending at `(i, j)` with size `k` starts at
`(i + 1 - k, j + 1 - k)`. -/
def rowBest (i : Nat) : Nat → List Nat → Nat × Nat × Nat → Nat × Nat × Nat
  | _, [], best => best
  | j, k :: ks, best =>
    rowBest i (j+1) ks (if best.2.2 < k then (i + 1 - k, j + 1 - k, k) else best)

/-- Scan all rows of the dynamic program. -/
def lmScanGo (pop b : List Char) :
    Nat → List Char → List Nat → Nat × Nat × Nat → Nat × Nat × Nat
  | _, [], _, best => best
  | i, ai :: arest, prevRow, best =>
    let row := lmRow ai pop b (0 :: prevRow)
    lmScanGo pop b (i+1) arest row (rowBest i 0 row best)

/-- The dynamic program of `find_longest_match` over full ranges:
returns `(i, j, size)`, the best block *before* the extension loops. -/
def lmScan (pop a b : List Char) : Nat × Nat × Nat :=
  lmScanGo pop b 0 a [] (0, 0, 0)

/-- Common prefix length of two *reversed* strings, the second argument
being the (reversed) `b` side whose characters must not be popular. -/
def cplP (pop : List Char) : List Char → List Char → Nat
  | x :: xs, y :: ys => if y == x && !pop.contains y then cplP pop xs ys + 1 else 0
  | _, _ => 0

/-- Longest common suffix length with the popularity restriction. -/
def cslP (pop x y : List Char) : Nat := cplP pop x.reverse y.reverse

/-- `find_longest_match` including its block-extension while-loops: the
block found by the dynamic program is extended backwards and then
forwards over equal characters.  The loops are guarded by `isbjunk`, and
with no junk function `bjunk` is empty — so characters that autojunk
excluded from the dynamic program (`bpopular`) still take part in the
extension, and the junk-extension loops that follow never fire. -/
def lmScanExt (pop a b : List Char) : Nat × Nat × Nat :=
  match lmScan pop a b with
  | (i, j, k) =>
    (i - cslP [] (a.take i) (b.take j),
     j - cslP [] (a.take i) (b.take j),
     k + cslP [] (a.take i) (b.take j) + cplP [] (a.drop (i + k)) (b.drop (j + k)))

/-- Total size of all matching blocks (`get_matching_blocks` recursion
over the extended `find_longest_match`); `fuel ≥ a.length + b.length`
always suffices. -/
def matchingTotal (pop : List Char) : Nat → List Char → List Char → Nat
  | 0, _, _ => 0
  | fuel+1, a, b =>
    match lmScanExt pop a b with
    | (i, j, k) =>
      if k = 0 then 0
      else matchingTotal pop fuel (a.take i) (b.take j) + k +
           matchingTotal pop fuel (a.drop (i+k)) (b.drop (j+k))

/-- The autojunk heuristic of `SequenceMatcher.__chain_b`: when
`len(b) >= 200`, elements occurring more than `len(b)//100 + 1` times are
excluded from matching. -/
def popularOf (b : List Char) : List Char :=
  if 200 ≤ b.length then b.dedup.filter (fun c => b.length / 100 + 1 < b.count c)
  else []

/-- `SequenceMatcher(None, a, b).ratio()` over `ℚ`. -/
def seqSimilarity (a b : List Char) : ℚ :=
  if a.length + b.length = 0 then 1
  else 2 * (matchingTotal (popularOf b) (a.length + b.length) a b : ℚ) /
    (a.length + b.length)

/-- Evaluation helper: reduce a concrete `seqSimilarity` value to the
kernel-computable block total. -/
theorem seqSimilarity_eq (a b : List Char) (m la lb : Nat)
    (ha : a.length = la) (hb : b.length = lb)
    (hm : matchingTotal (popularOf b) (la + lb) a b = m) (hT : la + lb ≠ 0) :
    seqSimilarity a b = (2 * m : ℚ) / (((la + lb : ℕ)) : ℚ) := by
  rw [seqSimilarity, ha, hb, if_neg hT, hm]
  push_cast
  ring_nf

/-!
## Scorers and selectors shared between the two files
-/

/-- The word-overlap term of the strict scorer (identical in both files):
Jaccard index of the whitespace-split word sets, `0` when either set is
empty (`if folder_words and video_words`). -/
def strictWordOverlap (fc vc : List Char) : ℚ :=
  if (splitWs fc).toFinset = ∅ ∨ (splitWs vc).toFinset = ∅ then 0
  else (((splitWs fc).toFinset ∩ (splitWs vc).toFinset).card : ℚ) /
    (((splitWs fc).toFinset ∪ (splitWs vc).toFinset).card : ℚ)

/-- The word signal of the *relaxed* scorer (identical in both files):
`len(common) / max(len(folder_words), len(video_words))`, `0` when either
set is empty. -/
def relaxedWordSim (cf cv : List Char) : ℚ :=
  if (splitWs cf).toFinset = ∅ ∨ (splitWs cv).toFinset = ∅ then 0
  else (((splitWs cf).toFinset ∩ (splitWs cv).toFinset).card : ℚ) /
    ((max (splitWs cf).toFinset.card (splitWs cv).toFinset.card : ℕ) : ℚ)

/-- Modelled from the spec (§4.2, refinement reference only): "size of the
intersection of the two strings' whitespace-split word sets divided by the
size of their union (Jaccard index over words); 0 if either word set is
empty."  Used to compare the spec's claimed word signal with the code's. -/
def jaccardSpec (cf cv : List Char) : ℚ :=
  if (splitWs cf).toFinset = ∅ ∨ (splitWs cv).toFinset = ∅ then 0
  else (((splitWs cf).toFinset ∩ (splitWs cv).toFinset).card : ℚ) /
    (((splitWs cf).toFinset ∪ (splitWs cv).toFinset).card : ℚ)

/-- The best-match accumulation of `find_best_video_match` (both files):
`if total > best_score and total >= threshold: update`. -/
def bestFold (threshold : ℚ) :
    List (List Char × ℚ) → Option (List Char) × ℚ → Option (List Char) × ℚ
  | [], best => best
  | (f, s) :: rest, best =>
    bestFold threshold rest (if best.2 < s ∧ threshold ≤ s then (some f, s) else best)

/-- Python's `max(candidates, key=score)` (and equally the stable
descending sort plus first element of `upgraded.py`): the *first* element
attaining the maximal score. -/
def pickMax : List (List Char × ℚ) → Option (List Char × ℚ)
  | [] => none
  | p :: rest => some (rest.foldl (fun b q => if b.2 < q.2 then q else b) p)

/-- The media-extension filter applied to candidate file names
(`any(filename.lower().endswith(ext) for ext in video_extensions)`). -/
def video_extensions : List (List Char) :=
  [(".mp4").toList, (".avi").toList, (".mkv").toList, (".mov").toList,
   (".wmv").toList, (".flv").toList, (".webm").toList, (".m4v").toList,
   (".3gp").toList, (".mpeg").toList, (".mpg").toList, (".ts").toList,
   (".mts").toList, (".m2ts").toList, (".vob").toList, (".ogv").toList,
   (".divx").toList, (".xvid").toList]

/-- A candidate participates only when its lowercased name ends with a
known media extension. -/
def isVideoFile (name : List Char) : Bool :=
  video_extensions.any (fun e => e.isSuffixOf (lowerL name))

/-- The `clean_folder` computation of `find_videos_by_content_similarity`
(identical in both files): strip every `'.gifs'` occurrence, specials to
spaces, lowercase, collapse and trim whitespace.  No junk-term or bracket
removal happens on the folder side of the relaxed strategy. -/
def relaxedCleanFolder (folder_name : List Char) : List Char :=
  pyStrip (collapseWs (lowerL (specialsToSpace (replaceDotGifs folder_name))))

namespace MainPy

/-- `main.py` line 11: extension alternation, in source order — note the
final `gifs`. -/
def nameExts : List (List Char) :=
  [("mp4").toList, ("avi").toList, ("mkv").toList, ("mov").toList,
   ("wmv").toList, ("flv").toList, ("webm").toList, ("m4v").toList,
   ("3gp").toList, ("mpeg").toList, ("mpg").toList, ("ts").toList,
   ("mts").toList, ("m2ts").toList, ("vob").toList, ("ogv").toList,
   ("divx").toList, ("xvid").toList, ("gifs").toList]

/-- `main.py` lines 17-21: the junk terms. -/
def common_terms : List (List Char) :=
  [("official").toList, ("trailer").toList, ("teaser").toList, ("hd").toList,
   ("full").toList, ("movie").toList, ("video").toList, ("download").toList,
   ("1080p").toList, ("720p").toList, ("4k").toList, ("scene").toList,
   ("clip").toList, ("part").toList, ("version").toList, ("extended").toList,
   ("director").toList, ("cut").toList, ("subtitles").toList, ("subs").toList]

/-- `main.py` lines 6-31 `extract_core_name`: strip a trailing extension,
remove `[...]` groups, remove junk terms (replacement `''`), specials to
spaces, collapse and trim whitespace, lowercase. -/
def extract_core_name (name : List Char) : List Char :=
  lowerL (pyStrip (collapseWs (specialsToSpace
    (dejunk common_terms [] (stripSqBrackets (stripExt nameExts name))))))

/-- `main.py` lines 33-35 `similarity_score`: the raw `SequenceMatcher`
ratio, with *no* empty-string guard. -/
def similarity_score (a b : List Char) : ℚ := seqSimilarity a b

/-- The per-candidate combined score of `main.py` lines 57-74: note that
the containment test `folder_core in video_core or video_core in
folder_core` has no emptiness guard (the empty string is contained in
everything). -/
def strictTotal (folder_core video_core : List Char) : ℚ :=
  similarity_score folder_core video_core * (1/2) +
  (if containsSub folder_core video_core || containsSub video_core folder_core
   then (8/10 : ℚ) else 0) * (3/10) +
  strictWordOverlap folder_core video_core * (1/5)

/-- `main.py` lines 37-80 `find_best_video_match` over a candidate listing:
returns the matched file name (in place of the joined path) and its score. -/
def find_best_video_match (folder_name : List Char) (files : List (List Char))
    (threshold : ℚ) : Option (List Char) × ℚ :=
  bestFold threshold
    ((files.filter isVideoFile).map
      (fun f => (f, strictTotal (extract_core_name folder_name) (extract_core_name f))))
    (none, 0)

/-- The `clean_video` computation of `main.py` lines 99-109: drop the
(final) extension, remove `[...]` groups, specials to spaces, lowercase,
collapse and trim. -/
def relaxedCleanVideo (filename : List Char) : List Char :=
  pyStrip (collapseWs (lowerL (specialsToSpace (stripSqBrackets (splitextBase filename)))))

/-- The per-candidate relaxed score of `main.py` lines 111-130:
`max(similarity, no_space_similarity, word_similarity)` with *unguarded*
`SequenceMatcher` calls. -/
def relaxedTotal (folder_name filename : List Char) : ℚ :=
  let cf := relaxedCleanFolder folder_name
  let cv := relaxedCleanVideo filename
  max (max (seqSimilarity cf cv) (seqSimilarity (noSpace cf) (noSpace cv)))
    (relaxedWordSim cf cv)

/-- `main.py` lines 82-146 `find_videos_by_content_similarity`: keep the
candidates whose relaxed score is *strictly* above the hard-coded `0.6`,
then return the first maximum (`max(potential_matches, key=...)`), else
`(None, 0)`. -/
def relaxedEntry (folder_name f : List Char) : Option (List Char × ℚ) :=
  if (6/10 : ℚ) < relaxedTotal folder_name f
  then some (f, relaxedTotal folder_name f) else none

def find_videos_by_content_similarity (folder_name : List Char)
    (files : List (List Char)) : Option (List Char) × ℚ :=
  match pickMax ((files.filter isVideoFile).filterMap (relaxedEntry folder_name)) with
  | some (f, s) => (some f, s)
  | none => (none, 0)

/-- The strict-then-relaxed composite of `cleanup_gifs_folders_and_videos`
(`main.py` lines 201-207): strict at threshold `0.65`, falling back to the
relaxed method when no strict match was found. -/
def selectBest (folder_name : List Char) (files : List (List Char)) :
    Option (List Char) × ℚ :=
  match find_best_video_match folder_name files (65/100) with
  | (some f, s) => (some f, s)
  | (none, _) => find_videos_by_content_similarity folder_name files

end MainPy

namespace UpgPy

/-- `upgraded.py` lines 50-51: extension alternation — note the final
`gif` (the source comments "IMPORTANT: 'gif' not 'gifs'"). -/
def nameExts : List (List Char) :=
  [("mp4").toList, ("avi").toList, ("mkv").toList, ("mov").toList,
   ("wmv").toList, ("flv").toList, ("webm").toList, ("m4v").toList,
   ("3gp").toList, ("mpeg").toList, ("mpg").toList, ("ts").toList,
   ("mts").toList, ("m2ts").toList, ("vob").toList, ("ogv").toList,
   ("divx").toList, ("xvid").toList, ("gif").toList]

/-- `upgraded.py` lines 57-62: the junk terms (six more than `main.py`). -/
def common_terms : List (List Char) :=
  [("official").toList, ("trailer").toList, ("teaser").toList, ("hd").toList,
   ("full").toList, ("movie").toList, ("video").toList, ("download").toList,
   ("1080p").toList, ("720p").toList, ("4k").toList, ("scene").toList,
   ("clip").toList, ("part").toList, ("version").toList, ("extended").toList,
   ("director").toList, ("cut").toList, ("subtitles").toList, ("subs").toList,
   ("x264").toList, ("h264").toList, ("hevc").toList, ("remux").toList,
   ("bluray").toList, ("bdrip").toList]

/-- `upgraded.py` lines 38-70 `extract_core_name`: strip a trailing
extension, remove `[...]`/`(...)` groups (replacement `' '`), remove junk
terms (replacement `' '`), specials to spaces, collapse and trim,
lowercase. -/
def extract_core_name (name : List Char) : List Char :=
  lowerL (pyStrip (collapseWs (specialsToSpace
    (dejunk common_terms [' '] (stripBrackets2 (stripExt nameExts name))))))

/-- `upgraded.py` lines 72-76 `similarity_score`: guarded —
`if not a or not b: return 0.0`. -/
def similarity_score (a b : List Char) : ℚ :=
  if a = [] ∨ b = [] then 0 else seqSimilarity a b

/-- The per-candidate combined score of `upgraded.py` lines 105-123: the
containment bonus requires both cores non-empty. -/
def strictTotal (folder_core video_core : List Char) : ℚ :=
  similarity_score folder_core video_core * (1/2) +
  (if folder_core ≠ [] ∧ video_core ≠ [] ∧
      (containsSub folder_core video_core || containsSub video_core folder_core)
   then (8/10 : ℚ) else 0) * (3/10) +
  strictWordOverlap folder_core video_core * (1/5)

/-- `upgraded.py` lines 99-128 `find_best_video_match` over the candidate
index (iteration order = insertion order of `index_videos`). -/
def find_best_video_match (folder_name : List Char) (files : List (List Char))
    (threshold : ℚ) : Option (List Char) × ℚ :=
  bestFold threshold
    ((files.filter isVideoFile).map
      (fun f => (f, strictTotal (extract_core_name folder_name) (extract_core_name f))))
    (none, 0)

/-- The `clean_video` computation of `upgraded.py` lines 139-142: drop the
extension, remove `[...]`/`(...)` groups (replacement `' '`), specials to
spaces, lowercase, collapse and trim. -/
def relaxedCleanVideo (filename : List Char) : List Char :=
  pyStrip (collapseWs (lowerL (specialsToSpace (stripBrackets2 (splitextBase filename)))))

/-- The per-candidate relaxed score of `upgraded.py` lines 144-153, using
the *guarded* `similarity_score`. -/
def relaxedTotal (folder_name filename : List Char) : ℚ :=
  let cf := relaxedCleanFolder folder_name
  let cv := relaxedCleanVideo filename
  max (max (similarity_score cf cv) (similarity_score (noSpace cf) (noSpace cv)))
    (relaxedWordSim cf cv)

/-- `upgraded.py` lines 130-160 `find_videos_by_content_similarity`: keep
candidates with score `>= low_threshold`, stable-sort descending and take
the first, else `(None, 0.0)`. -/
def relaxedEntry (folder_name : List Char) (low_threshold : ℚ) (f : List Char) :
    Option (List Char × ℚ) :=
  if low_threshold ≤ relaxedTotal folder_name f
  then some (f, relaxedTotal folder_name f) else none

def find_videos_by_content_similarity (folder_name : List Char)
    (files : List (List Char)) (low_threshold : ℚ) : Option (List Char) × ℚ :=
  match pickMax ((files.filter isVideoFile).filterMap
      (relaxedEntry folder_name low_threshold)) with
  | some (f, s) => (some f, s)
  | none => (none, 0)

/-- The strict-then-relaxed composite of `gather_pairs`
(`upgraded.py` lines 181-185): strict at `threshold`, falling back to the
relaxed method at `threshold - 0.05` when no strict match was found. -/
def selectBest (folder_name : List Char) (files : List (List Char))
    (threshold : ℚ) : Option (List Char) × ℚ :=
  match find_best_video_match folder_name files threshold with
  | (some f, s) => (some f, s)
  | (none, _) => find_videos_by_content_similarity folder_name files (threshold - 1/20)

end UpgPy

/-!
## Kernel-computable twins of the well-founded recursions

`stripSqBrackets`, `stripBrackets2` and `replaceDotGifs` are defined by
well-founded recursion, which the kernel cannot evaluate on concrete
inputs; the fuel-indexed twins below are structurally recursive and
provably equal once the fuel covers the input length.
-/

def sqFuel : Nat → List Char → List Char
  | 0, s => s
  | _+1, [] => []
  | fuel+1, c :: cs =>
    if c == '[' then
      match findCloseSq cs with
      | some rest => sqFuel fuel rest
      | none => c :: sqFuel fuel cs
    else c :: sqFuel fuel cs

theorem sqFuel_eq : ∀ (fuel : Nat) (s : List Char), s.length ≤ fuel →
    sqFuel fuel s = stripSqBrackets s := by
  intro fuel
  induction fuel with
  | zero =>
    intro s hs
    have hnil : s = [] := List.eq_nil_of_length_eq_zero (Nat.le_zero.mp hs)
    subst hnil
    rw [sqFuel, stripSqBrackets]
  | succ fuel ih =>
    intro s hs
    match s with
    | [] => rw [sqFuel, stripSqBrackets]
    | c :: cs =>
      rw [sqFuel, stripSqBrackets]
      by_cases hc : (c == '[') = true
      · rw [if_pos hc, if_pos hc]
        rcases hfc : findCloseSq cs with _ | rest
        · dsimp only
          rw [ih cs (by simp only [List.length_cons] at hs; omega)]
        · dsimp only
          rw [ih rest (by
            have hlt := findCloseSq_length cs rest hfc
            simp only [List.length_cons] at hs
            omega)]
      · rw [if_neg hc, if_neg hc]
        rw [ih cs (by simp only [List.length_cons] at hs; omega)]

def brFuel : Nat → List Char → List Char
  | 0, s => s
  | _+1, [] => []
  | fuel+1, c :: cs =>
    if c == '[' || c == '(' then
      match findCloseBr cs with
      | some rest => ' ' :: brFuel fuel rest
      | none => c :: brFuel fuel cs
    else c :: brFuel fuel cs

theorem brFuel_eq : ∀ (fuel : Nat) (s : List Char), s.length ≤ fuel →
    brFuel fuel s = stripBrackets2 s := by
  intro fuel
  induction fuel with
  | zero =>
    intro s hs
    have hnil : s = [] := List.eq_nil_of_length_eq_zero (Nat.le_zero.mp hs)
    subst hnil
    rw [brFuel, stripBrackets2]
  | succ fuel ih =>
    intro s hs
    match s with
    | [] => rw [brFuel, stripBrackets2]
    | c :: cs =>
      rw [brFuel, stripBrackets2]
      by_cases hc : (c == '[' || c == '(') = true
      · rw [if_pos hc, if_pos hc]
        rcases hfc : findCloseBr cs with _ | rest
        · dsimp only
          rw [ih cs (by simp only [List.length_cons] at hs; omega)]
        · dsimp only
          rw [ih rest (by
            have hlt := findCloseBr_length cs rest hfc
            simp only [List.length_cons] at hs
            omega)]
      · rw [if_neg hc, if_neg hc]
        rw [ih cs (by simp only [List.length_cons] at hs; omega)]

def rdgFuel : Nat → List Char → List Char
  | 0, s => s
  | _+1, [] => []
  | fuel+1, c :: cs =>
    if ['.', 'g', 'i', 'f', 's'].isPrefixOf (c :: cs) then rdgFuel fuel (cs.drop 4)
    else c :: rdgFuel fuel cs

theorem rdgFuel_eq : ∀ (fuel : Nat) (s : List Char), s.length ≤ fuel →
    rdgFuel fuel s = replaceDotGifs s := by
  intro fuel
  induction fuel with
  | zero =>
    intro s hs
    have hnil : s = [] := List.eq_nil_of_length_eq_zero (Nat.le_zero.mp hs)
    subst hnil
    rw [rdgFuel, replaceDotGifs]
  | succ fuel ih =>
    intro s hs
    match s with
    | [] => rw [rdgFuel, replaceDotGifs]
    | c :: cs =>
      rw [rdgFuel, replaceDotGifs]
      by_cases hc : (['.', 'g', 'i', 'f', 's'].isPrefixOf (c :: cs)) = true
      · rw [if_pos hc, if_pos hc]
        rw [ih (cs.drop 4) (by
          simp only [List.length_cons, List.length_drop] at hs ⊢
          omega)]
      · rw [if_neg hc, if_neg hc]
        rw [ih cs (by simp only [List.length_cons] at hs; omega)]

/-- Evaluate `MainPy.extract_core_name` on a concrete name through the
kernel-computable twin. -/
theorem MainPy.extract_core_name_eval_main (name z r : List Char)
    (h1 : sqFuel (stripExt MainPy.nameExts name).length
      (stripExt MainPy.nameExts name) = z)
    (h2 : lowerL (pyStrip (collapseWs (specialsToSpace
      (dejunk MainPy.common_terms [] z)))) = r) :
    MainPy.extract_core_name name = r := by
  rw [MainPy.extract_core_name, ← sqFuel_eq _ _ (Nat.le_refl _), h1, h2]

/-- Evaluate `UpgPy.extract_core_name` on a concrete name through the
kernel-computable twin. -/
theorem UpgPy.extract_core_name_eval_upg (name z r : List Char)
    (h1 : brFuel (stripExt UpgPy.nameExts name).length
      (stripExt UpgPy.nameExts name) = z)
    (h2 : lowerL (pyStrip (collapseWs (specialsToSpace
      (dejunk UpgPy.common_terms [' '] z)))) = r) :
    UpgPy.extract_core_name name = r := by
  rw [UpgPy.extract_core_name, ← brFuel_eq _ _ (Nat.le_refl _), h1, h2]

/-- Evaluate `MainPy.relaxedCleanVideo` on a concrete name. -/
theorem MainPy.relaxedCleanVideo_eval_main (fn z r : List Char)
    (h1 : sqFuel (splitextBase fn).length (splitextBase fn) = z)
    (h2 : pyStrip (collapseWs (lowerL (specialsToSpace z))) = r) :
    MainPy.relaxedCleanVideo fn = r := by
  rw [MainPy.relaxedCleanVideo, ← sqFuel_eq _ _ (Nat.le_refl _), h1, h2]

/-- Evaluate `UpgPy.relaxedCleanVideo` on a concrete name. -/
theorem UpgPy.relaxedCleanVideo_eval_upg (fn z r : List Char)
    (h1 : brFuel (splitextBase fn).length (splitextBase fn) = z)
    (h2 : pyStrip (collapseWs (lowerL (specialsToSpace z))) = r) :
    UpgPy.relaxedCleanVideo fn = r := by
  rw [UpgPy.relaxedCleanVideo, ← brFuel_eq _ _ (Nat.le_refl _), h1, h2]

/-- Evaluate `relaxedCleanFolder` on a concrete name. -/
theorem relaxedCleanFolder_eval (fn z r : List Char)
    (h1 : rdgFuel fn.length fn = z)
    (h2 : pyStrip (collapseWs (lowerL (specialsToSpace z))) = r) :
    relaxedCleanFolder fn = r := by
  rw [relaxedCleanFolder, ← rdgFuel_eq _ _ (Nat.le_refl _), h1, h2]

/-!
## Character membership through the early normalizer stages

Each pre-lowercasing stage only keeps characters of its input (or emits
spaces); these lemmas chase a character of a stage's output back to the
original name, to transport domain facts such as `U+0130`-freeness.
-/

theorem findCloseSq_subset : ∀ (s r : List Char), findCloseSq s = some r → ∀ c ∈ r, c ∈ s := by
  intro s
  induction s with
  | nil => intro r h; simp [findCloseSq] at h
  | cons d ds ih =>
    intro r h c hc
    rw [findCloseSq] at h
    by_cases h1 : d == ']'
    · rw [if_pos h1] at h
      cases h
      exact List.mem_cons_of_mem _ hc
    · rw [if_neg h1] at h
      by_cases h2 : d == '\n'
      · rw [if_pos h2] at h; cases h
      · rw [if_neg h2] at h
        exact List.mem_cons_of_mem _ (ih r h c hc)

theorem findCloseBr_subset : ∀ (s r : List Char), findCloseBr s = some r → ∀ c ∈ r, c ∈ s := by
  intro s
  induction s with
  | nil => intro r h; simp [findCloseBr] at h
  | cons d ds ih =>
    intro r h c hc
    rw [findCloseBr] at h
    by_cases h1 : (d == ']' || d == ')')
    · rw [if_pos h1] at h
      cases h
      exact List.mem_cons_of_mem _ hc
    · rw [if_neg h1] at h
      by_cases h2 : d == '\n'
      · rw [if_pos h2] at h; cases h
      · rw [if_neg h2] at h
        exact List.mem_cons_of_mem _ (ih r h c hc)

theorem mem_sqFuel : ∀ (fuel : Nat) (s : List Char) (c : Char), c ∈ sqFuel fuel s → c ∈ s := by
  intro fuel
  induction fuel with
  | zero => intro s c hc; exact hc
  | succ fuel ih =>
    intro s c hc
    match s with
    | [] => exact hc
    | d :: ds =>
      rw [sqFuel] at hc
      by_cases hd : (d == '[') = true
      · rw [if_pos hd] at hc
        rcases hfc : findCloseSq ds with _ | rest
        · rw [hfc] at hc
          dsimp only at hc
          rcases List.mem_cons.mp hc with rfl | h1
          · exact List.mem_cons_self _ _
          · exact List.mem_cons_of_mem _ (ih ds c h1)
        · rw [hfc] at hc
          dsimp only at hc
          exact List.mem_cons_of_mem _ (findCloseSq_subset ds rest hfc c (ih rest c hc))
      · rw [if_neg hd] at hc
        rcases List.mem_cons.mp hc with rfl | h1
        · exact List.mem_cons_self _ _
        · exact List.mem_cons_of_mem _ (ih ds c h1)

theorem mem_stripSqBrackets (s : List Char) (c : Char) (h : c ∈ stripSqBrackets s) :
    c ∈ s := by
  rw [← sqFuel_eq s.length s (Nat.le_refl _)] at h
  exact mem_sqFuel _ _ _ h

theorem mem_brFuel : ∀ (fuel : Nat) (s : List Char) (c : Char), c ∈ brFuel fuel s →
    c ∈ s ∨ c = ' ' := by
  intro fuel
  induction fuel with
  | zero => intro s c hc; exact Or.inl hc
  | succ fuel ih =>
    intro s c hc
    match s with
    | [] => exact Or.inl hc
    | d :: ds =>
      rw [brFuel] at hc
      by_cases hd : (d == '[' || d == '(') = true
      · rw [if_pos hd] at hc
        rcases hfc : findCloseBr ds with _ | rest
        · rw [hfc] at hc
          dsimp only at hc
          rcases List.mem_cons.mp hc with rfl | h1
          · exact Or.inl (List.mem_cons_self _ _)
          · rcases ih ds c h1 with h2 | h2
            · exact Or.inl (List.mem_cons_of_mem _ h2)
            · exact Or.inr h2
        · rw [hfc] at hc
          dsimp only at hc
          rcases List.mem_cons.mp hc with rfl | h1
          · exact Or.inr rfl
          · rcases ih rest c h1 with h2 | h2
            · exact Or.inl (List.mem_cons_of_mem _ (findCloseBr_subset ds rest hfc c h2))
            · exact Or.inr h2
      · rw [if_neg hd] at hc
        rcases List.mem_cons.mp hc with rfl | h1
        · exact Or.inl (List.mem_cons_self _ _)
        · rcases ih ds c h1 with h2 | h2
          · exact Or.inl (List.mem_cons_of_mem _ h2)
          · exact Or.inr h2

theorem mem_stripBrackets2 (s : List Char) (c : Char) (h : c ∈ stripBrackets2 s) :
    c ∈ s ∨ c = ' ' := by
  rw [← brFuel_eq s.length s (Nat.le_refl _)] at h
  exact mem_brFuel _ _ _ h

theorem mem_stripExt (exts : List (List Char)) (s : List Char) (c : Char)
    (h : c ∈ stripExt exts s) : c ∈ s := by
  rw [stripExt] at h
  rcases hf : exts.find? (fun e => ('.' :: e).isSuffixOf (lowerL s)) with _ | e
  · rw [hf] at h
    exact h
  · rw [hf] at h
    exact List.take_subset _ _ h

theorem mem_emitRun (terms : List (List Char)) (repl acc : List Char) (c : Char)
    (h : c ∈ emitRun terms repl acc) : c ∈ acc ∨ c ∈ repl := by
  rw [emitRun] at h
  by_cases h1 : acc = []
  · rw [if_pos h1] at h
    cases h
  · rw [if_neg h1] at h
    by_cases h2 : lowerL acc.reverse ∈ terms
    · rw [if_pos h2] at h
      exact Or.inr h
    · rw [if_neg h2] at h
      exact Or.inl (List.mem_reverse.mp h)

theorem mem_dejunkAux (terms : List (List Char)) (repl : List Char) :
    ∀ (s acc : List Char) (c : Char), c ∈ dejunkAux terms repl acc s →
      c ∈ acc ∨ c ∈ s ∨ c ∈ repl := by
  intro s
  induction s with
  | nil =>
    intro acc c h
    rw [dejunkAux] at h
    rcases mem_emitRun _ _ _ _ h with h1 | h1
    · exact Or.inl h1
    · exact Or.inr (Or.inr h1)
  | cons d ds ih =>
    intro acc c h
    rw [dejunkAux] at h
    by_cases hw : pyIsWord d = true
    · rw [if_pos hw] at h
      rcases ih (d :: acc) c h with h1 | h1 | h1
      · rcases List.mem_cons.mp h1 with rfl | h2
        · exact Or.inr (Or.inl (List.mem_cons_self _ _))
        · exact Or.inl h2
      · exact Or.inr (Or.inl (List.mem_cons_of_mem _ h1))
      · exact Or.inr (Or.inr h1)
    · rw [if_neg hw] at h
      rcases List.mem_append.mp h with h1 | h1
      · rcases mem_emitRun _ _ _ _ h1 with h2 | h2
        · exact Or.inl h2
        · exact Or.inr (Or.inr h2)
      · rcases List.mem_cons.mp h1 with rfl | h2
        · exact Or.inr (Or.inl (List.mem_cons_self _ _))
        · rcases ih [] c h2 with h3 | h3 | h3
          · cases h3
          · exact Or.inr (Or.inl (List.mem_cons_of_mem _ h3))
          · exact Or.inr (Or.inr h3)

theorem mem_dejunk (terms : List (List Char)) (repl s : List Char) (c : Char)
    (h : c ∈ dejunk terms repl s) : c ∈ s ∨ c ∈ repl := by
  rcases mem_dejunkAux terms repl s [] c h with h1 | h1 | h1
  · cases h1
  · exact Or.inl h1
  · exact Or.inr h1

/-!
## Lemmas about the selector folds
-/

theorem bestFold_append (t : ℚ) (xs ys : List (List Char × ℚ)) (acc : Option (List Char) × ℚ) :
    bestFold t (xs ++ ys) acc = bestFold t ys (bestFold t xs acc) := by
  induction xs generalizing acc with
  | nil => simp [bestFold]
  | cons p xs ih => cases p; simp only [List.cons_append, bestFold]; exact ih _

theorem bestFold_no_update (t : ℚ) (l : List (List Char × ℚ)) (acc : Option (List Char) × ℚ)
    (h : ∀ p ∈ l, p.2 ≤ acc.2 ∨ p.2 < t) : bestFold t l acc = acc := by
  induction l with
  | nil => rfl
  | cons p rest ih =>
    cases p with
    | mk f s =>
      have hs := h (f, s) (List.mem_cons_self _ _)
      have hneg : ¬(acc.2 < s ∧ t ≤ s) := by
        rcases hs with h2 | h2
        · exact fun hc => absurd h2 (not_le.mpr hc.1)
        · exact fun hc => absurd hc.2 (not_le.mpr h2)
      rw [bestFold, if_neg hneg]
      exact ih (fun p hp => h p (List.mem_cons_of_mem _ hp))

theorem bestFold_keeps_none (t : ℚ) (l : List (List Char × ℚ))
    (h : ∀ p ∈ l, p.2 ≤ 0 ∨ p.2 < t) : bestFold t l (none, 0) = (none, 0) :=
  bestFold_no_update t l (none, 0) h

theorem bestFold_first_max (t : ℚ) (f : List Char) (s : ℚ) (ht : t ≤ s) :
    ∀ (l₁ : List (List Char × ℚ)) (l₂ : List (List Char × ℚ)) (acc : Option (List Char) × ℚ),
      (∀ p ∈ l₁, p.2 < s) → (∀ p ∈ l₂, p.2 ≤ s) → acc.2 < s →
      bestFold t (l₁ ++ (f, s) :: l₂) acc = (some f, s) := by
  intro l₁
  induction l₁ with
  | nil =>
    intro l₂ acc _ h2 hacc
    simp only [List.nil_append, bestFold, if_pos (And.intro hacc ht)]
    exact bestFold_no_update t l₂ (some f, s) (fun p hp => Or.inl (h2 p hp))
  | cons p rest ih =>
    intro l₂ acc h1 h2 hacc
    cases p with
    | mk g r =>
      rw [List.cons_append, bestFold]
      have hr : r < s := h1 (g, r) (List.mem_cons_self _ _)
      have hrest := fun p hp => h1 p (List.mem_cons_of_mem _ hp)
      by_cases hc : acc.2 < r ∧ t ≤ r
      · rw [if_pos hc]
        exact ih l₂ (some g, r) hrest h2 hr
      · rw [if_neg hc]
        exact ih l₂ acc hrest h2 hacc

theorem pickMax_foldl_no_gt (p : List Char × ℚ) :
    ∀ l : List (List Char × ℚ), (∀ q ∈ l, q.2 ≤ p.2) →
      l.foldl (fun b q => if b.2 < q.2 then q else b) p = p := by
  intro l
  induction l with
  | nil => intro _; rfl
  | cons q rest ih =>
    intro h
    rw [List.foldl_cons, if_neg (not_lt.mpr (h q (List.mem_cons_self _ _)))]
    exact ih (fun q hq => h q (List.mem_cons_of_mem _ hq))

theorem pickMax_foldl_first_max (f : List Char) (s : ℚ) :
    ∀ (l₁ l₂ : List (List Char × ℚ)) (p : List Char × ℚ),
      (∀ q ∈ l₁, q.2 < s) → (∀ q ∈ l₂, q.2 ≤ s) → p.2 < s →
      (l₁ ++ (f, s) :: l₂).foldl (fun b q => if b.2 < q.2 then q else b) p = (f, s) := by
  intro l₁
  induction l₁ with
  | nil =>
    intro l₂ p _ h2 hp
    rw [List.nil_append, List.foldl_cons, if_pos hp]
    exact pickMax_foldl_no_gt (f, s) l₂ h2
  | cons q rest ih =>
    intro l₂ p h1 h2 hp
    rw [List.cons_append, List.foldl_cons]
    have hq : q.2 < s := h1 q (List.mem_cons_self _ _)
    have hrest := fun r hr => h1 r (List.mem_cons_of_mem _ hr)
    by_cases hc : p.2 < q.2
    · rw [if_pos hc]
      exact ih l₂ q hrest h2 hq
    · rw [if_neg hc]
      exact ih l₂ p hrest h2 hp

theorem pickMax_first_max (l₁ l₂ : List (List Char × ℚ)) (f : List Char) (s : ℚ)
    (h1 : ∀ q ∈ l₁, q.2 < s) (h2 : ∀ q ∈ l₂, q.2 ≤ s) :
    pickMax (l₁ ++ (f, s) :: l₂) = some (f, s) := by
  cases l₁ with
  | nil =>
    rw [List.nil_append, pickMax, pickMax_foldl_no_gt (f, s) l₂ h2]
  | cons p rest =>
    rw [List.cons_append, pickMax, pickMax_foldl_first_max f s rest l₂ p
      (fun q hq => h1 q (List.mem_cons_of_mem _ hq)) h2 (h1 p (List.mem_cons_self _ _))]

/-!
## Lemmas about the `SequenceMatcher` dynamic program

`lmRow` computes, cell by cell, the length of the longest common suffix
of the processed prefix of `a` and the corresponding prefix of `b`
(restricted to non-popular `b`-characters); `cslP` is that quantity.
-/

theorem cplP_nil_left (pop : List Char) (y : List Char) : cplP pop [] y = 0 := by
  cases y <;> rfl

theorem cplP_nil_right (pop : List Char) (x : List Char) : cplP pop x [] = 0 := by
  cases x <;> rfl

theorem cplP_le_left (pop : List Char) : ∀ x y : List Char, cplP pop x y ≤ x.length := by
  intro x
  induction x with
  | nil => intro y; rw [cplP_nil_left]; exact Nat.zero_le _
  | cons c cs ih =>
    intro y
    cases y with
    | nil => rw [cplP_nil_right]; exact Nat.zero_le _
    | cons d ds =>
      rw [cplP]
      by_cases h : (d == c && !pop.contains d)
      · rw [if_pos h, List.length_cons]
        exact Nat.succ_le_succ (ih ds)
      · rw [if_neg h]; exact Nat.zero_le _

theorem cplP_le_right (pop : List Char) : ∀ x y : List Char, cplP pop x y ≤ y.length := by
  intro x
  induction x with
  | nil => intro y; rw [cplP_nil_left]; exact Nat.zero_le _
  | cons c cs ih =>
    intro y
    cases y with
    | nil => rw [cplP_nil_right]; exact Nat.zero_le _
    | cons d ds =>
      rw [cplP]
      by_cases h : (d == c && !pop.contains d)
      · rw [if_pos h, List.length_cons]
        exact Nat.succ_le_succ (ih ds)
      · rw [if_neg h]; exact Nat.zero_le _

theorem cplP_self : ∀ x : List Char, cplP [] x x = x.length := by
  intro x
  induction x with
  | nil => rfl
  | cons c cs ih =>
    rw [cplP, if_pos (by simp), ih, List.length_cons]

theorem cslP_le_left (pop x y : List Char) : cslP pop x y ≤ x.length := by
  rw [cslP, ← List.length_reverse x]
  exact cplP_le_left pop _ _

theorem cslP_le_right (pop x y : List Char) : cslP pop x y ≤ y.length := by
  rw [cslP, ← List.length_reverse y]
  exact cplP_le_right pop _ _

theorem cslP_nil_left (pop y : List Char) : cslP pop [] y = 0 := by
  rw [cslP, List.reverse_nil, cplP_nil_left]

theorem cslP_nil_right (pop x : List Char) : cslP pop x [] = 0 := by
  rw [cslP, List.reverse_nil, cplP_nil_right]

theorem cslP_snoc (pop x y : List Char) (a b : Char) :
    cslP pop (x ++ [a]) (y ++ [b]) =
      if b == a && !pop.contains b then cslP pop x y + 1 else 0 := by
  rw [cslP, List.reverse_append, List.reverse_append]
  simp only [List.reverse_singleton, List.singleton_append, cplP]
  rfl

theorem cslP_self (x : List Char) : cslP [] x x = x.length := by
  rw [cslP, cplP_self, List.length_reverse]

/-- Small `getD` helpers. -/
theorem getD_tail (l : List Nat) (j : Nat) : l.tail.getD j 0 = l.getD (j+1) 0 := by
  cases l <;> rfl

theorem getD_take_of_lt (l : List Nat) : ∀ (i m : Nat), m < i → (l.take i).getD m 0 = l.getD m 0 := by
  induction l with
  | nil => intro i m _; simp
  | cons a l ih =>
    intro i m hm
    cases i with
    | zero => omega
    | succ i =>
      cases m with
      | zero => rfl
      | succ m => simpa using ih i m (by omega)

theorem getD_drop (l : List Nat) : ∀ (i m : Nat), (l.drop i).getD m 0 = l.getD (i + m) 0 := by
  induction l with
  | nil => intro i m; simp
  | cons a l ih =>
    intro i m
    cases i with
    | zero => simp
    | succ i => simpa [Nat.succ_add] using ih i m

theorem headD_eq_getD (l : List Nat) : l.headD 0 = l.getD 0 0 := by
  cases l <;> rfl

theorem lmRow_length (ai : Char) (pop : List Char) :
    ∀ (b : List Char) (shift : List Nat), (lmRow ai pop b shift).length = b.length := by
  intro b
  induction b with
  | nil => intro shift; rfl
  | cons bj bs ih => intro shift; rw [lmRow, List.length_cons, List.length_cons, ih]

/-- The cell characterization of one dynamic-program row: if the shifted
previous row holds the common-suffix lengths for prefix `x`, the new row
holds them for `x ++ [ai]`. -/
theorem lmRow_getD (ai : Char) (pop : List Char) (x : List Char) :
    ∀ (bs done : List Char) (shift : List Nat),
      (∀ j, j ≤ bs.length → shift.getD j 0 = cslP pop x (done ++ bs.take j)) →
      ∀ j, j < bs.length →
        (lmRow ai pop bs shift).getD j 0 = cslP pop (x ++ [ai]) (done ++ bs.take (j+1)) := by
  intro bs
  induction bs with
  | nil => intro done shift _ j hj; simp at hj
  | cons bj bs ih =>
    intro done shift hshift j hj
    cases j with
    | zero =>
      have h0 : shift.headD 0 = cslP pop x done := by
        rw [headD_eq_getD]
        simpa using hshift 0 (Nat.zero_le _)
      rw [lmRow, List.getD_cons_zero]
      simp only [List.take_succ_cons, List.take_zero]
      rw [show done ++ bj :: ([] : List Char) = done ++ [bj] from rfl, cslP_snoc, h0]
    | succ m =>
      rw [lmRow, List.getD_cons_succ, List.take_succ_cons]
      have hmain := ih (done ++ [bj]) shift.tail
        (fun j hjle => by
          rw [getD_tail, hshift (j+1) (by simpa using Nat.succ_le_succ hjle),
            List.take_succ_cons]
          congr 1
          simp)
        m (by simpa using hj)
      rw [hmain]
      congr 1
      simp

/-- A found block `(i, j, k)` is valid for lengths `(la, lb)` when it fits
in both strings. -/
def ValidBlock (la lb : Nat) (best : Nat × Nat × Nat) : Prop :=
  best.1 + best.2.2 ≤ la ∧ best.2.1 + best.2.2 ≤ lb

theorem rowBest_no_update (i : Nat) :
    ∀ (ks : List Nat) (j : Nat) (best : Nat × Nat × Nat),
      (∀ m, m < ks.length → ks.getD m 0 ≤ best.2.2) →
      rowBest i j ks best = best := by
  intro ks
  induction ks with
  | nil => intro j best _; rfl
  | cons k ks ih =>
    intro j best h
    have h0 : k ≤ best.2.2 := by simpa using h 0 (by simp)
    rw [rowBest, if_neg (not_lt.mpr h0)]
    exact ih (j+1) best (fun m hm => by simpa using h (m+1) (by simpa using hm))

theorem rowBest_hit (i : Nat) :
    ∀ (ks₁ : List Nat) (v : Nat) (ks₂ : List Nat) (j : Nat) (best : Nat × Nat × Nat),
      (∀ m, m < ks₁.length → ks₁.getD m 0 ≤ best.2.2) →
      best.2.2 < v →
      (∀ m, m < ks₂.length → ks₂.getD m 0 ≤ v) →
      rowBest i j (ks₁ ++ v :: ks₂) best = (i + 1 - v, (j + ks₁.length) + 1 - v, v) := by
  intro ks₁
  induction ks₁ with
  | nil =>
    intro v ks₂ j best _ hv h2
    rw [List.nil_append, rowBest, if_pos hv]
    rw [rowBest_no_update i ks₂ (j+1) _ (fun m hm => h2 m hm)]
    simp
  | cons k ks ih =>
    intro v ks₂ j best h1 hv h2
    have h0 : k ≤ best.2.2 := by simpa using h1 0 (by simp)
    rw [List.cons_append, rowBest, if_neg (not_lt.mpr h0)]
    rw [ih v ks₂ (j+1) best (fun m hm => by simpa using h1 (m+1) (by simpa using hm)) hv h2]
    simp only [List.length_cons]
    rw [show j + 1 + ks.length = j + (ks.length + 1) from by omega]

theorem rowBest_valid (la lb i : Nat) (hila : i < la) :
    ∀ (ks : List Nat) (j : Nat) (best : Nat × Nat × Nat),
      j + ks.length ≤ lb →
      (∀ m, m < ks.length → ks.getD m 0 ≤ i + 1 ∧ ks.getD m 0 ≤ j + m + 1) →
      ValidBlock la lb best → ValidBlock la lb (rowBest i j ks best) := by
  intro ks
  induction ks with
  | nil => intro j best _ _ hb; exact hb
  | cons k ks ih =>
    intro j best hlen hks hb
    rw [rowBest]
    have hk := hks 0 (by simp)
    simp only [List.getD_cons_zero] at hk
    have hnext : ∀ m, m < ks.length → ks.getD m 0 ≤ i + 1 ∧ ks.getD m 0 ≤ (j+1) + m + 1 := by
      intro m hm
      have := hks (m+1) (by simpa using hm)
      simp only [List.getD_cons_succ] at this
      exact ⟨this.1, by omega⟩
    by_cases hc : best.2.2 < k
    · rw [if_pos hc]
      refine ih (j+1) _ (by simp at hlen ⊢; omega) hnext ?_
      constructor
      · show i + 1 - k + k ≤ la
        omega
      · show j + 1 - k + k ≤ lb
        simp only [List.length_cons] at hlen
        omega
    · rw [if_neg hc]
      exact ih (j+1) best (by simp at hlen ⊢; omega) hnext hb

theorem lmScanGo_cons (pop b : List Char) (i : Nat) (ai : Char) (arest : List Char)
    (prevRow : List Nat) (best : Nat × Nat × Nat) :
    lmScanGo pop b i (ai :: arest) prevRow best =
      lmScanGo pop b (i+1) arest (lmRow ai pop b (0 :: prevRow))
        (rowBest i 0 (lmRow ai pop b (0 :: prevRow)) best) := rfl

/-- The shifted previous row always satisfies the `cslP` characterization
needed by `lmRow_getD`. -/
theorem shift_spec (pop b x : List Char) (prevRow : List Nat)
    (hprev : ∀ j, j < b.length → prevRow.getD j 0 = cslP pop x (b.take (j+1))) :
    ∀ j, j ≤ b.length → (0 :: prevRow).getD j 0 = cslP pop x ([] ++ b.take j) := by
  intro j hj
  cases j with
  | zero => simp [cslP_nil_right]
  | succ m =>
    rw [List.getD_cons_succ, List.nil_append, hprev m (by omega)]

/-- Row characterization inside the scan. -/
theorem row_spec (pop b x : List Char) (ai : Char) (prevRow : List Nat)
    (hprev : ∀ j, j < b.length → prevRow.getD j 0 = cslP pop x (b.take (j+1))) :
    ∀ j, j < b.length →
      (lmRow ai pop b (0 :: prevRow)).getD j 0 = cslP pop (x ++ [ai]) (b.take (j+1)) := by
  intro j hj
  have := lmRow_getD ai pop x b [] (0 :: prevRow) (shift_spec pop b x prevRow hprev) j hj
  simpa using this

theorem lmScanGo_valid (pop b : List Char) :
    ∀ (arest x : List Char) (prevRow : List Nat) (best : Nat × Nat × Nat),
      (∀ j, j < b.length → prevRow.getD j 0 = cslP pop x (b.take (j+1))) →
      ValidBlock (x ++ arest).length b.length best →
      ValidBlock (x ++ arest).length b.length (lmScanGo pop b x.length arest prevRow best) := by
  intro arest
  induction arest with
  | nil => intro x prevRow best _ hb; exact hb
  | cons ai rest ih =>
    intro x prevRow best hprev hb
    rw [lmScanGo_cons]
    have hrow := row_spec pop b x ai prevRow hprev
    have hrowlen : (lmRow ai pop b (0 :: prevRow)).length = b.length := lmRow_length ai pop b _
    have hvalid : ValidBlock (x ++ ai :: rest).length b.length
        (rowBest x.length 0 (lmRow ai pop b (0 :: prevRow)) best) := by
      refine rowBest_valid _ _ x.length (by simp) _ 0 best (by rw [hrowlen]; omega) ?_ hb
      intro m hm
      rw [hrowlen] at hm
      rw [hrow m hm]
      constructor
      · have := cslP_le_left pop (x ++ [ai]) (b.take (m+1))
        simpa using this
      · have h1 := cslP_le_right pop (x ++ [ai]) (b.take (m+1))
        have h2 : (b.take (m+1)).length ≤ m + 1 := by
          rw [List.length_take]; omega
        omega
    have heq : x ++ ai :: rest = (x ++ [ai]) ++ rest := by simp
    rw [heq] at hvalid ⊢
    have hlen : x.length + 1 = (x ++ [ai]).length := by simp
    rw [hlen]
    exact ih (x ++ [ai]) _ _ hrow hvalid

theorem lmScan_valid (pop a b : List Char) : ValidBlock a.length b.length (lmScan pop a b) := by
  rw [lmScan]
  have := lmScanGo_valid pop b a [] [] (0, 0, 0)
    (fun j hj => by simp [cslP_nil_left])
    (by constructor <;> simp)
  simpa using this

theorem lmScanExt_valid (pop a b : List Char) :
    ValidBlock a.length b.length (lmScanExt pop a b) := by
  rw [lmScanExt]
  rcases hs : lmScan pop a b with ⟨i, j, k⟩
  have hv := lmScan_valid pop a b
  rw [hs] at hv
  rcases hv with ⟨hva, hvb⟩
  simp only at hva hvb
  dsimp only
  have h1 : cslP [] (a.take i) (b.take j) ≤ i := by
    have hle := cslP_le_left [] (a.take i) (b.take j)
    have h2 : (a.take i).length ≤ i := by rw [List.length_take]; omega
    omega
  have h3 : cplP [] (a.drop (i+k)) (b.drop (j+k)) ≤ a.length - (i+k) := by
    have hle := cplP_le_left [] (a.drop (i+k)) (b.drop (j+k))
    rw [List.length_drop] at hle
    omega
  have h4 : cplP [] (a.drop (i+k)) (b.drop (j+k)) ≤ b.length - (j+k) := by
    have hle := cplP_le_right [] (a.drop (i+k)) (b.drop (j+k))
    rw [List.length_drop] at hle
    omega
  constructor
  · show i - cslP [] (a.take i) (b.take j) +
      (k + cslP [] (a.take i) (b.take j) + cplP [] (a.drop (i+k)) (b.drop (j+k))) ≤ a.length
    omega
  · show j - cslP [] (a.take i) (b.take j) +
      (k + cslP [] (a.take i) (b.take j) + cplP [] (a.drop (i+k)) (b.drop (j+k))) ≤ b.length
    have h5 : cslP [] (a.take i) (b.take j) ≤ j := by
      have hle := cslP_le_right [] (a.take i) (b.take j)
      have h6 : (b.take j).length ≤ j := by rw [List.length_take]; omega
      omega
    omega

theorem matchingTotal_le (pop : List Char) :
    ∀ (fuel : Nat) (a b : List Char),
      matchingTotal pop fuel a b ≤ a.length ∧ matchingTotal pop fuel a b ≤ b.length := by
  intro fuel
  induction fuel with
  | zero => intro a b; constructor <;> simp [matchingTotal]
  | succ fuel ih =>
    intro a b
    have hv := lmScanExt_valid pop a b
    rcases hs : lmScanExt pop a b with ⟨i, j, k⟩
    rw [hs] at hv
    rcases hv with ⟨hva, hvb⟩
    simp only at hva hvb
    rw [matchingTotal, hs]
    dsimp only
    by_cases hk : k = 0
    · rw [if_pos hk]; constructor <;> simp
    · rw [if_neg hk]
      have h1 := ih (a.take i) (b.take j)
      have h2 := ih (a.drop (i+k)) (b.drop (j+k))
      have hta : (a.take i).length = i := by rw [List.length_take]; omega
      have htb : (b.take j).length = j := by rw [List.length_take]; omega
      have hda : (a.drop (i+k)).length = a.length - (i+k) := by rw [List.length_drop]
      have hdb : (b.drop (j+k)).length = b.length - (j+k) := by rw [List.length_drop]
      rw [hta] at h1
      rw [htb] at h1
      rw [hda, hdb] at h2
      constructor <;> omega

theorem lmScanGo_nil_b (pop : List Char) :
    ∀ (arest : List Char) (i : Nat) (prevRow : List Nat) (best : Nat × Nat × Nat),
      lmScanGo pop [] i arest prevRow best = best := by
  intro arest
  induction arest with
  | nil => intro i prevRow best; rfl
  | cons ai rest ih => intro i prevRow best; rw [lmScanGo_cons, ih]; rfl

theorem lmScan_nil_right (pop a : List Char) : lmScan pop a [] = (0, 0, 0) := by
  rw [lmScan, lmScanGo_nil_b]

theorem lmScan_nil_left (pop b : List Char) : lmScan pop [] b = (0, 0, 0) := rfl

theorem lmScanExt_nil_right (pop a : List Char) : lmScanExt pop a [] = (0, 0, 0) := by
  rw [lmScanExt, lmScan_nil_right]
  simp [cslP_nil_right, cplP_nil_right]

theorem lmScanExt_nil_left (pop b : List Char) : lmScanExt pop [] b = (0, 0, 0) := by
  rw [lmScanExt, lmScan_nil_left]
  simp [cslP_nil_left, cplP_nil_left]

theorem matchingTotal_nil_right (pop : List Char) (fuel : Nat) (a : List Char) :
    matchingTotal pop fuel a [] = 0 := by
  cases fuel with
  | zero => rfl
  | succ fuel => rw [matchingTotal, lmScanExt_nil_right]; rfl

theorem matchingTotal_nil_left (pop : List Char) (fuel : Nat) (b : List Char) :
    matchingTotal pop fuel [] b = 0 := by
  cases fuel with
  | zero => rfl
  | succ fuel => rw [matchingTotal, lmScanExt_nil_left]; rfl

/-!
### Self-comparison: the extended best block is the whole string

In a self-comparison every cell of the dynamic program is dominated by a
diagonal cell that the scan visits no later, and the running best is
replaced only by a *strictly* larger cell, so the block `lmScan` returns
always lies on the diagonal; the extension loops (which ignore the
popular set) then stretch it to the whole string.  Hence
`SequenceMatcher.ratio` of every non-empty string with itself is `1`,
autojunk or not.
-/

theorem cplP_le_diag_right (pop : List Char) : ∀ x y : List Char,
    cplP pop x y ≤ cplP pop y y := by
  intro x
  induction x with
  | nil => intro y; rw [cplP_nil_left]; exact Nat.zero_le _
  | cons c cs ih =>
    intro y
    cases y with
    | nil => rw [cplP_nil_right]; exact Nat.zero_le _
    | cons d ds =>
      show (if (d == c && !pop.contains d) = true then cplP pop cs ds + 1 else 0) ≤
        (if (d == d && !pop.contains d) = true then cplP pop ds ds + 1 else 0)
      by_cases h : (d == c && !pop.contains d) = true
      · rw [if_pos h]
        simp only [Bool.and_eq_true] at h
        rw [if_pos (by simp only [Bool.and_eq_true]; exact ⟨by simp, h.2⟩)]
        exact Nat.succ_le_succ (ih ds)
      · rw [if_neg h]
        exact Nat.zero_le _

theorem cplP_le_diag_left (pop : List Char) : ∀ x y : List Char,
    cplP pop x y ≤ cplP pop x x := by
  intro x
  induction x with
  | nil => intro y; rw [cplP_nil_left]; exact Nat.zero_le _
  | cons c cs ih =>
    intro y
    cases y with
    | nil => rw [cplP_nil_right]; exact Nat.zero_le _
    | cons d ds =>
      show (if (d == c && !pop.contains d) = true then cplP pop cs ds + 1 else 0) ≤
        (if (c == c && !pop.contains c) = true then cplP pop cs cs + 1 else 0)
      by_cases h : (d == c && !pop.contains d) = true
      · rw [if_pos h]
        simp only [Bool.and_eq_true, beq_iff_eq] at h
        obtain ⟨rfl, h2⟩ := h
        rw [if_pos (by simp only [Bool.and_eq_true]; exact ⟨by simp, h2⟩)]
        exact Nat.succ_le_succ (ih ds)
      · rw [if_neg h]
        exact Nat.zero_le _

theorem cslP_le_diag_right (pop x y : List Char) : cslP pop x y ≤ cslP pop y y :=
  cplP_le_diag_right pop x.reverse y.reverse

theorem cslP_le_diag_left (pop x y : List Char) : cslP pop x y ≤ cslP pop x x :=
  cplP_le_diag_left pop x.reverse y.reverse

theorem rowBest_append (i : Nat) :
    ∀ (ks₁ ks₂ : List Nat) (j : Nat) (best : Nat × Nat × Nat),
      rowBest i j (ks₁ ++ ks₂) best =
        rowBest i (j + ks₁.length) ks₂ (rowBest i j ks₁ best) := by
  intro ks₁
  induction ks₁ with
  | nil =>
    intro ks₂ j best
    rw [List.nil_append]
    show rowBest i j ks₂ best = rowBest i (j + 0) ks₂ best
    rw [Nat.add_zero]
  | cons k ks ih =>
    intro ks₂ j best
    rw [List.cons_append, rowBest, rowBest, ih ks₂ (j+1) _]
    rw [show j + 1 + ks.length = j + (ks.length + 1) from by omega]
    rfl

/-- One row of a self-comparison, staged: the cells left of the diagonal
are dominated by the incoming best, those right of it by the diagonal
cell, so the scan either keeps the incoming best or moves to the
diagonal cell. -/
theorem rowBest_self (i d : Nat) (ks₁ ks₂ : List Nat) (best : Nat × Nat × Nat)
    (hlen : ks₁.length = i)
    (h1 : ∀ m, m < ks₁.length → ks₁.getD m 0 ≤ best.2.2)
    (h2 : ∀ m, m < ks₂.length → ks₂.getD m 0 ≤ d) :
    rowBest i 0 (ks₁ ++ d :: ks₂) best =
      if best.2.2 < d then (i + 1 - d, i + 1 - d, d) else best := by
  rw [rowBest_append, rowBest_no_update i ks₁ 0 best h1]
  rw [rowBest]
  by_cases hc : best.2.2 < d
  · rw [if_pos hc, if_pos hc]
    rw [rowBest_no_update i ks₂ (0 + ks₁.length + 1)
      (i + 1 - d, 0 + ks₁.length + 1 - d, d) (fun m hm => h2 m hm)]
    rw [hlen, show 0 + i + 1 - d = i + 1 - d from by omega]
  · rw [if_neg hc, if_neg hc]
    exact rowBest_no_update i ks₂ _ best
      (fun m hm => le_trans (h2 m hm) (Nat.not_lt.mp hc))

theorem prefix_snoc_cases (y x : List Char) (a : Char) (h : y <+: x ++ [a]) :
    y <+: x ∨ y = x ++ [a] := by
  by_cases hlen : y.length ≤ x.length
  · left
    have heq : y = (x ++ [a]).take y.length := List.prefix_iff_eq_take.mp h
    rw [List.take_append_of_le_length hlen] at heq
    rw [heq]
    exact List.take_prefix _ _
  · right
    have hle : y.length ≤ x.length + 1 := by
      have := h.length_le
      simpa using this
    have hlen2 : y.length = x.length + 1 := by omega
    have heq : y = (x ++ [a]).take y.length := List.prefix_iff_eq_take.mp h
    rw [hlen2] at heq
    rw [heq, List.take_of_length_le (by simp)]

theorem lmScanGo_self_diag (pop A : List Char) :
    ∀ (arest x : List Char) (prevRow : List Nat) (best : Nat × Nat × Nat),
      x ++ arest = A →
      (∀ j, j < A.length → prevRow.getD j 0 = cslP pop x (A.take (j+1))) →
      best.1 = best.2.1 →
      (∀ (y : List Char) (j : Nat), y <+: x → j < A.length →
        cslP pop y (A.take (j+1)) ≤ best.2.2) →
      (lmScanGo pop A x.length arest prevRow best).1 =
        (lmScanGo pop A x.length arest prevRow best).2.1 := by
  intro arest
  induction arest with
  | nil =>
    intro x prevRow best _ _ hdiag _
    exact hdiag
  | cons ai rest ih =>
    intro x prevRow best hx hprev hdiag hdom
    have hlenx : x.length < A.length := by rw [← hx]; simp
    have hrow := row_spec pop A x ai prevRow hprev
    have hrowlen : (lmRow ai pop A (0 :: prevRow)).length = A.length := lmRow_length ai pop A _
    set row := lmRow ai pop A (0 :: prevRow) with hrowdef
    have htake : A.take (x.length + 1) = x ++ [ai] := by
      rw [← hx, List.take_append_eq_append_take, List.take_of_length_le (by omega),
        show x.length + 1 - x.length = 1 from by omega]
      rfl
    have hdecomp : row = row.take x.length ++ row.getD x.length 0 :: row.drop (x.length + 1) := by
      rw [List.getD_eq_getElem row 0 (by omega)]
      rw [← List.drop_eq_getElem_cons, List.take_append_drop]
    have htklen : (row.take x.length).length = x.length := by
      rw [List.length_take, hrowlen]
      omega
    have h1 : ∀ m, m < (row.take x.length).length → (row.take x.length).getD m 0 ≤ best.2.2 := by
      intro m hm
      rw [htklen] at hm
      rw [getD_take_of_lt row x.length m hm, hrow m (by omega)]
      have hd1 : cslP pop (x ++ [ai]) (A.take (m+1)) ≤ cslP pop (A.take (m+1)) (A.take (m+1)) :=
        cslP_le_diag_right pop _ _
      have hyx : A.take (m+1) <+: x := by
        have heq : A.take (m+1) = x.take (m+1) := by
          rw [← hx, List.take_append_of_le_length (by omega)]
        rw [heq]
        exact List.take_prefix _ _
      exact le_trans hd1 (hdom (A.take (m+1)) m hyx (by omega))
    have hdval : row.getD x.length 0 = cslP pop (x ++ [ai]) (x ++ [ai]) := by
      rw [hrow x.length hlenx, htake]
    have h2 : ∀ m, m < (row.drop (x.length + 1)).length →
        (row.drop (x.length + 1)).getD m 0 ≤ row.getD x.length 0 := by
      intro m hm
      rw [List.length_drop, hrowlen] at hm
      rw [getD_drop, hrow (x.length + 1 + m) (by omega), hdval]
      exact cslP_le_diag_left pop _ _
    have hbest := rowBest_self x.length (row.getD x.length 0) (row.take x.length)
      (row.drop (x.length + 1)) best htklen h1 h2
    rw [← hdecomp] at hbest
    rw [lmScanGo_cons, ← hrowdef, hbest]
    set best2 := if best.2.2 < row.getD x.length 0 then
      (x.length + 1 - row.getD x.length 0, x.length + 1 - row.getD x.length 0,
        row.getD x.length 0) else best with hb2
    have hdiag2 : best2.1 = best2.2.1 := by
      rw [hb2]
      split
      · rfl
      · exact hdiag
    have hmax : max best.2.2 (row.getD x.length 0) ≤ best2.2.2 := by
      rw [hb2]
      by_cases hc : best.2.2 < row.getD x.length 0
      · rw [if_pos hc]
        show max best.2.2 (row.getD x.length 0) ≤ row.getD x.length 0
        exact Nat.max_le.mpr ⟨Nat.le_of_lt hc, Nat.le_refl _⟩
      · rw [if_neg hc]
        exact Nat.max_le.mpr ⟨Nat.le_refl _, Nat.not_lt.mp hc⟩
    have hge : ∀ m, m < A.length → row.getD m 0 ≤ best2.2.2 := by
      intro m hm
      refine le_trans ?_ hmax
      rcases Nat.lt_trichotomy m x.length with hlt | heqm | hgt
      · refine le_trans ?_ (Nat.le_max_left _ _)
        have hcell := h1 m (by rw [htklen]; exact hlt)
        rw [getD_take_of_lt row x.length m hlt] at hcell
        exact hcell
      · subst heqm
        exact Nat.le_max_right _ _
      · refine le_trans ?_ (Nat.le_max_right _ _)
        have hm2 : m - (x.length + 1) < (row.drop (x.length + 1)).length := by
          rw [List.length_drop, hrowlen]
          omega
        have hcell := h2 (m - (x.length + 1)) hm2
        rw [getD_drop, show x.length + 1 + (m - (x.length + 1)) = m from by omega] at hcell
        exact hcell
    have hdom2 : ∀ (y : List Char) (j : Nat), y <+: (x ++ [ai]) → j < A.length →
        cslP pop y (A.take (j+1)) ≤ best2.2.2 := by
      intro y j hy hj
      rcases prefix_snoc_cases y x ai hy with hy2 | rfl
      · refine le_trans (hdom y j hy2 hj) (le_trans (Nat.le_max_left _ _) hmax)
      · rw [← hrow j hj]
        exact hge j hj
    have hfinal := ih (x ++ [ai]) row best2 (by rw [← hx]; simp) hrow hdiag2 hdom2
    simp only [List.length_append, List.length_cons, List.length_nil] at hfinal
    exact hfinal

theorem lmScan_self_fst_eq (pop a : List Char) :
    (lmScan pop a a).1 = (lmScan pop a a).2.1 := by
  rw [lmScan]
  exact lmScanGo_self_diag pop a a [] [] (0, 0, 0) (by simp)
    (fun j hj => by simp [cslP_nil_left]) rfl
    (fun y j hy hj => by
      rw [List.prefix_nil.mp hy, cslP_nil_left])

theorem lmScanExt_self (pop a : List Char) : lmScanExt pop a a = (0, 0, a.length) := by
  rw [lmScanExt]
  rcases hs : lmScan pop a a with ⟨i, j, k⟩
  have hij : i = j := by
    have hfst := lmScan_self_fst_eq pop a
    rw [hs] at hfst
    exact hfst
  subst hij
  have hv := lmScan_valid pop a a
  rw [hs] at hv
  rcases hv with ⟨hva, _⟩
  simp only at hva
  dsimp only
  have htk : (a.take i).length = i := by
    rw [List.length_take]
    omega
  have he : cslP [] (a.take i) (a.take i) = i := by rw [cslP_self, htk]
  have hf : cplP [] (a.drop (i+k)) (a.drop (i+k)) = a.length - (i + k) := by
    rw [cplP_self, List.length_drop]
  rw [he, hf, Nat.sub_self, show k + i + (a.length - (i + k)) = a.length from by omega]

theorem matchingTotal_self (pop : List Char) (fuel : Nat) (a : List Char) (h : a ≠ []) :
    matchingTotal pop (fuel + 1) a a = a.length := by
  have hlen : 0 < a.length := List.length_pos.mpr h
  rw [matchingTotal, lmScanExt_self]
  dsimp only
  rw [if_neg (by omega)]
  simp [matchingTotal_nil_left, matchingTotal_nil_right]

/-!
### `ratio`-level consequences
-/

theorem seqSimilarity_self (a : List Char) (h : a ≠ []) : seqSimilarity a a = 1 := by
  have hpos : 0 < a.length := List.length_pos.mpr h
  obtain ⟨fuel, hfuel⟩ : ∃ fuel, a.length + a.length = fuel + 1 :=
    ⟨a.length + a.length - 1, by omega⟩
  rw [seqSimilarity, if_neg (by omega), hfuel, matchingTotal_self (popularOf a) fuel a h]
  have h0 : ((a.length : ℚ)) ≠ 0 := by
    exact_mod_cast Nat.pos_iff_ne_zero.mp hpos
  field_simp
  ring

theorem seqSimilarity_nil_right (a : List Char) (h : a ≠ []) : seqSimilarity a [] = 0 := by
  have hpos : 0 < a.length := List.length_pos.mpr h
  rw [seqSimilarity, if_neg (by simp only [List.length_nil, Nat.add_zero]; omega),
    matchingTotal_nil_right]
  simp

theorem seqSimilarity_nil_left (b : List Char) (h : b ≠ []) : seqSimilarity [] b = 0 := by
  have hpos : 0 < b.length := List.length_pos.mpr h
  rw [seqSimilarity, if_neg (by simp only [List.length_nil, Nat.zero_add]; omega),
    matchingTotal_nil_left]
  simp

theorem seqSimilarity_nil_nil : seqSimilarity [] [] = 1 := by
  simp [seqSimilarity]

theorem seqSimilarity_nonneg (a b : List Char) : 0 ≤ seqSimilarity a b := by
  rw [seqSimilarity]
  split
  · norm_num
  · positivity

theorem seqSimilarity_le_one (a b : List Char) : seqSimilarity a b ≤ 1 := by
  rw [seqSimilarity]
  by_cases hT : a.length + b.length = 0
  · rw [if_pos hT]
  · rw [if_neg hT]
    obtain ⟨h1, h2⟩ := matchingTotal_le (popularOf b) (a.length + b.length) a b
    have hpos : (0:ℚ) < (a.length : ℚ) + (b.length : ℚ) := by
      have : 0 < a.length + b.length := Nat.pos_of_ne_zero hT
      exact_mod_cast this
    rw [div_le_one hpos]
    have : 2 * matchingTotal (popularOf b) (a.length + b.length) a b ≤ a.length + b.length := by
      omega
    exact_mod_cast this

theorem strictWordOverlap_nonneg (fc vc : List Char) : 0 ≤ strictWordOverlap fc vc := by
  rw [strictWordOverlap]
  split
  · norm_num
  · positivity

theorem strictWordOverlap_le_one (fc vc : List Char) : strictWordOverlap fc vc ≤ 1 := by
  rw [strictWordOverlap]
  split
  · norm_num
  · rename_i hne
    push_neg at hne
    have hpos : 0 < ((splitWs fc).toFinset ∪ (splitWs vc).toFinset).card := by
      refine Finset.card_pos.mpr ?_
      exact (Finset.nonempty_iff_ne_empty.mpr hne.1).mono Finset.subset_union_left
    rw [div_le_one (by exact_mod_cast hpos)]
    have hsub : ((splitWs fc).toFinset ∩ (splitWs vc).toFinset).card ≤
        ((splitWs fc).toFinset ∪ (splitWs vc).toFinset).card :=
      Finset.card_le_card (Finset.inter_subset_union)
    exact_mod_cast hsub

/-!
### Bounds on the strict combined score, and selector characterizations
-/

theorem MainPy.strictTotal_le_main (fc vc : List Char) : MainPy.strictTotal fc vc ≤ 47/50 := by
  rw [MainPy.strictTotal, MainPy.similarity_score]
  have h1 := seqSimilarity_le_one fc vc
  have h2 : (if containsSub fc vc || containsSub vc fc then (8:ℚ)/10 else 0) ≤ 8/10 := by
    split <;> norm_num
  have h3 := strictWordOverlap_le_one fc vc
  linarith

theorem UpgPy.strictTotal_le_upg (fc vc : List Char) : UpgPy.strictTotal fc vc ≤ 47/50 := by
  rw [UpgPy.strictTotal, UpgPy.similarity_score]
  have h1 : (if fc = [] ∨ vc = [] then (0:ℚ) else seqSimilarity fc vc) ≤ 1 := by
    split
    · norm_num
    · exact seqSimilarity_le_one fc vc
  have h2 : (if fc ≠ [] ∧ vc ≠ [] ∧
      (containsSub fc vc || containsSub vc fc) then (8:ℚ)/10 else 0) ≤ 8/10 := by
    split <;> norm_num
  have h3 := strictWordOverlap_le_one fc vc
  linarith

theorem UpgPy.strictTotal_empty_left (vc : List Char) : UpgPy.strictTotal [] vc = 0 := by
  rw [UpgPy.strictTotal, UpgPy.similarity_score, if_pos (Or.inl rfl),
    if_neg (by intro hc; exact hc.1 rfl)]
  rw [strictWordOverlap, if_pos (Or.inl (by rfl))]
  ring

theorem MainPy.find_best_none_main (folder : List Char) (files : List (List Char)) (t : ℚ)
    (h : ∀ f ∈ files, isVideoFile f →
      MainPy.strictTotal (MainPy.extract_core_name folder) (MainPy.extract_core_name f) < t) :
    MainPy.find_best_video_match folder files t = (none, 0) := by
  rw [MainPy.find_best_video_match]
  apply bestFold_keeps_none
  intro p hp
  obtain ⟨f, hf, rfl⟩ := List.mem_map.mp hp
  right
  exact h f (List.mem_filter.mp hf).1 (List.mem_filter.mp hf).2

theorem UpgPy.find_best_none_upg (folder : List Char) (files : List (List Char)) (t : ℚ)
    (h : ∀ f ∈ files, isVideoFile f →
      UpgPy.strictTotal (UpgPy.extract_core_name folder) (UpgPy.extract_core_name f) < t) :
    UpgPy.find_best_video_match folder files t = (none, 0) := by
  rw [UpgPy.find_best_video_match]
  apply bestFold_keeps_none
  intro p hp
  obtain ⟨f, hf, rfl⟩ := List.mem_map.mp hp
  right
  exact h f (List.mem_filter.mp hf).1 (List.mem_filter.mp hf).2

theorem UpgPy.find_best_empty_core (folder : List Char) (files : List (List Char)) (t : ℚ)
    (h : UpgPy.extract_core_name folder = []) :
    UpgPy.find_best_video_match folder files t = (none, 0) := by
  rw [UpgPy.find_best_video_match, h]
  apply bestFold_keeps_none
  intro p hp
  obtain ⟨f, _, rfl⟩ := List.mem_map.mp hp
  left
  rw [UpgPy.strictTotal_empty_left]

theorem MainPy.find_best_first_max_main (folder : List Char) (pre post : List (List Char))
    (c : List Char) (t : ℚ) (hc : isVideoFile c = true)
    (ht : t ≤ MainPy.strictTotal (MainPy.extract_core_name folder) (MainPy.extract_core_name c))
    (hpos : 0 < MainPy.strictTotal (MainPy.extract_core_name folder) (MainPy.extract_core_name c))
    (h1 : ∀ f ∈ pre, isVideoFile f →
      MainPy.strictTotal (MainPy.extract_core_name folder) (MainPy.extract_core_name f) <
        MainPy.strictTotal (MainPy.extract_core_name folder) (MainPy.extract_core_name c))
    (h2 : ∀ f ∈ post, isVideoFile f →
      MainPy.strictTotal (MainPy.extract_core_name folder) (MainPy.extract_core_name f) ≤
        MainPy.strictTotal (MainPy.extract_core_name folder) (MainPy.extract_core_name c)) :
    MainPy.find_best_video_match folder (pre ++ c :: post) t =
      (some c, MainPy.strictTotal (MainPy.extract_core_name folder) (MainPy.extract_core_name c)) := by
  rw [MainPy.find_best_video_match, List.filter_append, List.filter_cons_of_pos hc,
    List.map_append, List.map_cons]
  refine bestFold_first_max t c _ ht _ _ _ ?_ ?_ hpos
  · intro p hp
    obtain ⟨f, hf, rfl⟩ := List.mem_map.mp hp
    exact h1 f (List.mem_filter.mp hf).1 (List.mem_filter.mp hf).2
  · intro p hp
    obtain ⟨f, hf, rfl⟩ := List.mem_map.mp hp
    exact h2 f (List.mem_filter.mp hf).1 (List.mem_filter.mp hf).2

theorem UpgPy.find_best_first_max_upg (folder : List Char) (pre post : List (List Char))
    (c : List Char) (t : ℚ) (hc : isVideoFile c = true)
    (ht : t ≤ UpgPy.strictTotal (UpgPy.extract_core_name folder) (UpgPy.extract_core_name c))
    (hpos : 0 < UpgPy.strictTotal (UpgPy.extract_core_name folder) (UpgPy.extract_core_name c))
    (h1 : ∀ f ∈ pre, isVideoFile f →
      UpgPy.strictTotal (UpgPy.extract_core_name folder) (UpgPy.extract_core_name f) <
        UpgPy.strictTotal (UpgPy.extract_core_name folder) (UpgPy.extract_core_name c))
    (h2 : ∀ f ∈ post, isVideoFile f →
      UpgPy.strictTotal (UpgPy.extract_core_name folder) (UpgPy.extract_core_name f) ≤
        UpgPy.strictTotal (UpgPy.extract_core_name folder) (UpgPy.extract_core_name c)) :
    UpgPy.find_best_video_match folder (pre ++ c :: post) t =
      (some c, UpgPy.strictTotal (UpgPy.extract_core_name folder) (UpgPy.extract_core_name c)) := by
  rw [UpgPy.find_best_video_match, List.filter_append, List.filter_cons_of_pos hc,
    List.map_append, List.map_cons]
  refine bestFold_first_max t c _ ht _ _ _ ?_ ?_ hpos
  · intro p hp
    obtain ⟨f, hf, rfl⟩ := List.mem_map.mp hp
    exact h1 f (List.mem_filter.mp hf).1 (List.mem_filter.mp hf).2
  · intro p hp
    obtain ⟨f, hf, rfl⟩ := List.mem_map.mp hp
    exact h2 f (List.mem_filter.mp hf).1 (List.mem_filter.mp hf).2

theorem MainPy.find_videos_none_main (folder : List Char) (files : List (List Char))
    (h : ∀ f ∈ files, isVideoFile f → MainPy.relaxedTotal folder f ≤ 6/10) :
    MainPy.find_videos_by_content_similarity folder files = (none, 0) := by
  rw [MainPy.find_videos_by_content_similarity]
  have hnil : (files.filter isVideoFile).filterMap (MainPy.relaxedEntry folder) = [] := by
    rw [List.filterMap_eq_nil_iff]
    intro f hf
    rw [MainPy.relaxedEntry,
      if_neg (not_lt.mpr (h f (List.mem_filter.mp hf).1 (List.mem_filter.mp hf).2))]
  rw [hnil]
  rfl

theorem UpgPy.find_videos_none_upg (folder : List Char) (files : List (List Char)) (low : ℚ)
    (h : ∀ f ∈ files, isVideoFile f → UpgPy.relaxedTotal folder f < low) :
    UpgPy.find_videos_by_content_similarity folder files low = (none, 0) := by
  rw [UpgPy.find_videos_by_content_similarity]
  have hnil : (files.filter isVideoFile).filterMap (UpgPy.relaxedEntry folder low) = [] := by
    rw [List.filterMap_eq_nil_iff]
    intro f hf
    rw [UpgPy.relaxedEntry,
      if_neg (not_le.mpr (h f (List.mem_filter.mp hf).1 (List.mem_filter.mp hf).2))]
  rw [hnil]
  rfl

theorem MainPy.find_videos_first_max_main (folder : List Char) (pre post : List (List Char))
    (c : List Char) (hc : isVideoFile c = true)
    (ht : 6/10 < MainPy.relaxedTotal folder c)
    (h1 : ∀ f ∈ pre, isVideoFile f →
      MainPy.relaxedTotal folder f < MainPy.relaxedTotal folder c)
    (h2 : ∀ f ∈ post, isVideoFile f →
      MainPy.relaxedTotal folder f ≤ MainPy.relaxedTotal folder c) :
    MainPy.find_videos_by_content_similarity folder (pre ++ c :: post) =
      (some c, MainPy.relaxedTotal folder c) := by
  rw [MainPy.find_videos_by_content_similarity, List.filter_append,
    List.filter_cons_of_pos hc, List.filterMap_append, List.filterMap_cons]
  rw [show MainPy.relaxedEntry folder c = some (c, MainPy.relaxedTotal folder c) from by
    rw [MainPy.relaxedEntry, if_pos ht]]
  rw [pickMax_first_max _ _ c (MainPy.relaxedTotal folder c) ?_ ?_]
  · intro p hp
    obtain ⟨f, hf, hpf⟩ := List.mem_filterMap.mp hp
    rw [MainPy.relaxedEntry] at hpf
    by_cases hcond : (6/10 : ℚ) < MainPy.relaxedTotal folder f
    · rw [if_pos hcond] at hpf
      cases hpf
      exact h1 f (List.mem_filter.mp hf).1 (List.mem_filter.mp hf).2
    · rw [if_neg hcond] at hpf
      cases hpf
  · intro p hp
    obtain ⟨f, hf, hpf⟩ := List.mem_filterMap.mp hp
    rw [MainPy.relaxedEntry] at hpf
    by_cases hcond : (6/10 : ℚ) < MainPy.relaxedTotal folder f
    · rw [if_pos hcond] at hpf
      cases hpf
      exact h2 f (List.mem_filter.mp hf).1 (List.mem_filter.mp hf).2
    · rw [if_neg hcond] at hpf
      cases hpf

theorem UpgPy.find_videos_first_max_upg (folder : List Char) (pre post : List (List Char))
    (c : List Char) (low : ℚ) (hc : isVideoFile c = true)
    (ht : low ≤ UpgPy.relaxedTotal folder c)
    (h1 : ∀ f ∈ pre, isVideoFile f →
      UpgPy.relaxedTotal folder f < UpgPy.relaxedTotal folder c)
    (h2 : ∀ f ∈ post, isVideoFile f →
      UpgPy.relaxedTotal folder f ≤ UpgPy.relaxedTotal folder c) :
    UpgPy.find_videos_by_content_similarity folder (pre ++ c :: post) low =
      (some c, UpgPy.relaxedTotal folder c) := by
  rw [UpgPy.find_videos_by_content_similarity, List.filter_append,
    List.filter_cons_of_pos hc, List.filterMap_append, List.filterMap_cons]
  rw [show UpgPy.relaxedEntry folder low c = some (c, UpgPy.relaxedTotal folder c) from by
    rw [UpgPy.relaxedEntry, if_pos ht]]
  rw [pickMax_first_max _ _ c (UpgPy.relaxedTotal folder c) ?_ ?_]
  · intro p hp
    obtain ⟨f, hf, hpf⟩ := List.mem_filterMap.mp hp
    rw [UpgPy.relaxedEntry] at hpf
    by_cases hcond : low ≤ UpgPy.relaxedTotal folder f
    · rw [if_pos hcond] at hpf
      cases hpf
      exact h1 f (List.mem_filter.mp hf).1 (List.mem_filter.mp hf).2
    · rw [if_neg hcond] at hpf
      cases hpf
  · intro p hp
    obtain ⟨f, hf, hpf⟩ := List.mem_filterMap.mp hp
    rw [UpgPy.relaxedEntry] at hpf
    by_cases hcond : low ≤ UpgPy.relaxedTotal folder f
    · rw [if_pos hcond] at hpf
      cases hpf
      exact h2 f (List.mem_filter.mp hf).1 (List.mem_filter.mp hf).2
    · rw [if_neg hcond] at hpf
      cases hpf

/-!
## Character-class lemmas
-/

theorem char_toNat_ofNat_valid (n : Nat) (h : n < 55296) : (Char.ofNat n).toNat = n := by
  rw [Char.ofNat, dif_pos (Or.inl h : Nat.isValidChar n)]
  rfl

theorem char_eq_of_toNat_eq {c d : Char} (h : c.toNat = d.toNat) : c = d :=
  Char.eq_of_val_eq (UInt32.toNat.inj h)

theorem lowerChar_upper (c : Char) (h : 65 ≤ c.toNat ∧ c.toNat ≤ 90) :
    (lowerChar c).toNat = c.toNat + 32 := by
  rw [lowerChar, if_pos (by simp only [Bool.and_eq_true, decide_eq_true_eq]; exact h)]
  exact char_toNat_ofNat_valid _ (by omega)

theorem lowerChar_eq_self (c : Char) (h : ¬(65 ≤ c.toNat ∧ c.toNat ≤ 90)) :
    lowerChar c = c := by
  rw [lowerChar, if_neg (by simp only [Bool.and_eq_true, decide_eq_true_eq]; exact h)]

theorem pyIsWord_iff (c : Char) : pyIsWord c = true ↔
    (65 ≤ c.toNat ∧ c.toNat ≤ 90) ∨ (97 ≤ c.toNat ∧ c.toNat ≤ 122) ∨
    (48 ≤ c.toNat ∧ c.toNat ≤ 57) ∨ c.toNat = 95 ∨ c.toNat = 304 := by
  simp only [pyIsWord, Bool.or_eq_true, Bool.and_eq_true, decide_eq_true_eq, beq_iff_eq]
  tauto

theorem pyIsSpace_iff (c : Char) : pyIsSpace c = true ↔
    c.toNat = 32 ∨ c.toNat = 9 ∨ c.toNat = 10 ∨ c.toNat = 13 ∨
    c.toNat = 11 ∨ c.toNat = 12 := by
  simp only [pyIsSpace, Bool.or_eq_true, beq_iff_eq]
  tauto

theorem pyIsWord_not_space (c : Char) (h : pyIsWord c = true) : pyIsSpace c = false := by
  rw [pyIsWord_iff] at h
  rw [← Bool.not_eq_true, pyIsSpace_iff]
  omega

theorem lowerChar_idem (c : Char) : lowerChar (lowerChar c) = lowerChar c := by
  by_cases h : 65 ≤ c.toNat ∧ c.toNat ≤ 90
  · have ht := lowerChar_upper c h
    exact lowerChar_eq_self _ (by omega)
  · rw [lowerChar_eq_self c h, lowerChar_eq_self c h]

theorem pyIsWord_lowerChar (c : Char) : pyIsWord (lowerChar c) = pyIsWord c := by
  by_cases h : 65 ≤ c.toNat ∧ c.toNat ≤ 90
  · have ht := lowerChar_upper c h
    rw [Bool.eq_iff_iff, pyIsWord_iff, pyIsWord_iff]
    omega
  · rw [lowerChar_eq_self c h]

theorem pyIsSpace_lowerChar (c : Char) : pyIsSpace (lowerChar c) = pyIsSpace c := by
  by_cases h : 65 ≤ c.toNat ∧ c.toNat ≤ 90
  · have ht := lowerChar_upper c h
    rw [Bool.eq_iff_iff, pyIsSpace_iff, pyIsSpace_iff]
    omega
  · rw [lowerChar_eq_self c h]

theorem lowerChar_space : lowerChar ' ' = ' ' := by decide

theorem lowerChar_eq_dot (c : Char) (h : lowerChar c = '.') : c = '.' := by
  by_cases hu : 65 ≤ c.toNat ∧ c.toNat ≤ 90
  · have ht := lowerChar_upper c hu
    rw [h] at ht
    have h46 : ('.' : Char).toNat = 46 := rfl
    omega
  · rw [lowerChar_eq_self c hu] at h
    exact h

theorem lowerChar_ne_304 (c : Char) (h : c.toNat ≠ 304) : (lowerChar c).toNat ≠ 304 := by
  by_cases hu : 65 ≤ c.toNat ∧ c.toNat ≤ 90
  · have := lowerChar_upper c hu
    omega
  · rw [lowerChar_eq_self c hu]
    exact h

theorem lowerExp_eq_single (c : Char) (h : c.toNat ≠ 304) : lowerExp c = [lowerChar c] := by
  rw [lowerExp, if_neg h]

theorem lowerL_cons (c : Char) (cs : List Char) :
    lowerL (c :: cs) = lowerExp c ++ lowerL cs := by
  rw [lowerL, lowerL, List.flatMap_cons]

theorem lowerL_append (s t : List Char) : lowerL (s ++ t) = lowerL s ++ lowerL t := by
  rw [lowerL, lowerL, lowerL, List.flatMap_append]

theorem lowerL_eq_map (s : List Char) (h : ∀ c ∈ s, c.toNat ≠ 304) :
    lowerL s = s.map lowerChar := by
  induction s with
  | nil => rfl
  | cons c cs ih =>
    rw [lowerL_cons, lowerExp_eq_single c (h c (List.mem_cons_self _ _)), List.map_cons,
      ih (fun d hd => h d (List.mem_cons_of_mem _ hd))]
    rfl

theorem lowerExp_lowerChar (c : Char) : lowerExp (lowerChar c) = lowerExp c := by
  by_cases hu : 65 ≤ c.toNat ∧ c.toNat ≤ 90
  · have ht := lowerChar_upper c hu
    rw [lowerExp, if_neg (by omega), lowerExp, if_neg (by omega), lowerChar_idem]
  · rw [lowerChar_eq_self c hu]

theorem lowerL_map_lowerChar (s : List Char) :
    lowerL (List.map lowerChar s) = lowerL s := by
  induction s with
  | nil => rfl
  | cons c cs ih =>
    rw [List.map_cons, lowerL_cons, lowerL_cons, lowerExp_lowerChar, ih]

theorem lowerExp_no304 (c d : Char) (h : d ∈ lowerExp c) : d.toNat ≠ 304 := by
  rw [lowerExp] at h
  by_cases hc : c.toNat = 304
  · rw [if_pos hc] at h
    rcases List.mem_cons.mp h with rfl | h2
    · rw [char_toNat_ofNat_valid 105 (by omega)]
      omega
    · rw [List.mem_singleton.mp h2, char_toNat_ofNat_valid 775 (by omega)]
      omega
  · rw [if_neg hc] at h
    rw [List.mem_singleton.mp h]
    exact lowerChar_ne_304 c hc

theorem lowerL_no304 (s : List Char) (c : Char) (h : c ∈ lowerL s) : c.toNat ≠ 304 := by
  rw [lowerL] at h
  obtain ⟨d, hd, hcd⟩ := List.mem_flatMap.mp h
  exact lowerExp_no304 d c hcd

theorem mem_lowerL (s : List Char) (c : Char) (h : c ∈ lowerL s) :
    ∃ d ∈ s, c ∈ lowerExp d := by
  rw [lowerL] at h
  exact List.mem_flatMap.mp h

/-!
## Fixed-point lemmas: each normalizer stage leaves a fully
normalized string unchanged
-/

theorem stripExt_id (exts : List (List Char)) (s : List Char)
    (h : ∀ c ∈ s, c ≠ '.') : stripExt exts s = s := by
  rw [stripExt]
  have hfind : exts.find? (fun e => ('.' :: e).isSuffixOf (lowerL s)) = none := by
    rw [List.find?_eq_none]
    intro e _
    simp only [Bool.not_eq_true]
    rw [← Bool.not_eq_true]
    intro hsuf
    have hsuffix : ('.' :: e) <:+ lowerL s := List.isSuffixOf_iff_suffix.mp hsuf
    have hdot : '.' ∈ lowerL s := hsuffix.subset (List.mem_cons_self _ _)
    obtain ⟨c, hc, hlc⟩ := mem_lowerL _ '.' hdot
    rw [lowerExp] at hlc
    by_cases h304 : c.toNat = 304
    · rw [if_pos h304] at hlc
      rcases List.mem_cons.mp hlc with h1 | h1
      · exact absurd h1 (by decide)
      · exact absurd (List.mem_singleton.mp h1) (by decide)
    · rw [if_neg h304] at hlc
      exact h c hc (lowerChar_eq_dot c (List.mem_singleton.mp hlc).symm)
  rw [hfind]

theorem stripSqBrackets_id (s : List Char) (h : ∀ c ∈ s, c ≠ '[') :
    stripSqBrackets s = s := by
  induction s with
  | nil => rw [stripSqBrackets]
  | cons c cs ih =>
    rw [stripSqBrackets, if_neg ?_]
    · rw [ih (fun d hd => h d (List.mem_cons_of_mem _ hd))]
    · simp only [beq_iff_eq]
      exact h c (List.mem_cons_self _ _)

theorem stripBrackets2_id (s : List Char) (h : ∀ c ∈ s, c ≠ '[' ∧ c ≠ '(') :
    stripBrackets2 s = s := by
  induction s with
  | nil => rw [stripBrackets2]
  | cons c cs ih =>
    rw [stripBrackets2, if_neg ?_]
    · rw [ih (fun d hd => h d (List.mem_cons_of_mem _ hd))]
    · simp only [Bool.or_eq_true, beq_iff_eq]
      push_neg
      exact h c (List.mem_cons_self _ _)

theorem dejunkAux_id (terms : List (List Char)) (repl : List Char) :
    ∀ (s acc : List Char),
      (∀ r ∈ runsAux acc s, lowerL r ∉ terms) →
      dejunkAux terms repl acc s = acc.reverse ++ s := by
  intro s
  induction s with
  | nil =>
    intro acc h
    rw [dejunkAux, emitRun]
    by_cases hacc : acc = []
    · rw [if_pos hacc, hacc]
      rfl
    · rw [if_neg hacc, if_neg ?_]
      · simp
      · exact h acc.reverse (by rw [runsAux, if_neg hacc]; exact List.mem_singleton.mpr rfl)
  | cons c cs ih =>
    intro acc h
    rw [dejunkAux]
    by_cases hw : pyIsWord c
    · rw [if_pos hw, ih (c :: acc) ?_]
      · simp
      · intro r hr
        apply h
        rw [runsAux, if_pos hw]
        exact hr
    · rw [if_neg hw]
      by_cases hacc : acc = []
      · subst hacc
        rw [emitRun, if_pos rfl, ih [] ?_]
        · simp
        · intro r hr
          apply h
          rw [runsAux, if_neg hw, if_pos rfl]
          exact hr
      · rw [emitRun, if_neg hacc, if_neg ?_]
        · rw [ih [] ?_]
          · simp
          · intro r hr
            apply h
            rw [runsAux, if_neg hw, if_neg hacc]
            exact List.mem_cons_of_mem _ hr
        · exact h acc.reverse
            (by rw [runsAux, if_neg hw, if_neg hacc]; exact List.mem_cons_self _ _)

theorem dejunk_id (terms : List (List Char)) (repl : List Char) (s : List Char)
    (h : ∀ r ∈ wordRuns s, lowerL r ∉ terms) : dejunk terms repl s = s := by
  rw [dejunk, dejunkAux_id terms repl s [] h]
  rfl

theorem specialsToSpace_id (s : List Char)
    (h : ∀ c ∈ s, pyIsWord c = true ∨ pyIsSpace c = true) : specialsToSpace s = s := by
  rw [specialsToSpace]
  induction s with
  | nil => rfl
  | cons c cs ih =>
    rw [List.map_cons, if_pos ?_, ih (fun d hd => h d (List.mem_cons_of_mem _ hd))]
    rcases h c (List.mem_cons_self _ _) with hc | hc <;> simp [hc]

theorem collapseGo_id (s : List Char)
    (hsp : ∀ c ∈ s, pyIsSpace c = true → c = ' ')
    (hch : List.Chain' (fun a b => ¬(pyIsSpace a = true ∧ pyIsSpace b = true)) s) :
    collapseGo false s = s ∧
      ((∀ c, s.head? = some c → pyIsSpace c = false) → collapseGo true s = s) := by
  induction s with
  | nil => exact ⟨rfl, fun _ => rfl⟩
  | cons c cs ih =>
    have hsp' := fun d hd => hsp d (List.mem_cons_of_mem _ hd)
    obtain ⟨ih1, ih2⟩ := ih hsp' hch.tail
    by_cases hc : pyIsSpace c = true
    · have hceq : c = ' ' := hsp c (List.mem_cons_self _ _) hc
      have hnext : ∀ d, cs.head? = some d → pyIsSpace d = false := by
        intro d hd
        cases cs with
        | nil => simp at hd
        | cons e es =>
          rw [List.head?_cons] at hd
          injection hd with hd
          subst hd
          have hrel := (List.chain'_cons.mp hch).1
          rw [← Bool.not_eq_true]
          intro hdsp
          exact hrel ⟨hc, hdsp⟩
      constructor
      · rw [collapseGo, if_pos hc, if_neg (by simp), ih2 hnext, hceq]
      · intro hhead
        have := hhead c rfl
        rw [hc] at this
        cases this
    · constructor
      · rw [collapseGo, if_neg hc, ih1]
      · intro _
        rw [collapseGo, if_neg hc, ih1]

theorem collapseWs_id (s : List Char)
    (hsp : ∀ c ∈ s, pyIsSpace c = true → c = ' ')
    (hch : List.Chain' (fun a b => ¬(pyIsSpace a = true ∧ pyIsSpace b = true)) s) :
    collapseWs s = s :=
  (collapseGo_id s hsp hch).1

theorem dropWhile_id_of_head (p : Char → Bool) (s : List Char)
    (h : ∀ c, s.head? = some c → p c = false) : s.dropWhile p = s := by
  cases s with
  | nil => rfl
  | cons c cs =>
    rw [List.dropWhile_cons, if_neg (by rw [h c rfl]; exact Bool.false_ne_true)]

theorem pyStrip_id (s : List Char)
    (hh : ∀ c, s.head? = some c → pyIsSpace c = false)
    (hl : ∀ c, s.getLast? = some c → pyIsSpace c = false) : pyStrip s = s := by
  rw [pyStrip, dropWhile_id_of_head pyIsSpace s hh,
    dropWhile_id_of_head pyIsSpace s.reverse (by
      intro c hc
      rw [List.head?_reverse] at hc
      exact hl c hc),
    List.reverse_reverse]

theorem lowerL_id (s : List Char) (h : ∀ c ∈ s, lowerChar c = c)
    (h304 : ∀ c ∈ s, c.toNat ≠ 304) : lowerL s = s := by
  rw [lowerL_eq_map s h304]
  calc s.map lowerChar = s.map id := List.map_congr_left h
    _ = s := List.map_id s

/-!
## Shape of the normalizer output
-/

theorem pyIsSpace_not_word (c : Char) (h : pyIsSpace c = true) : pyIsWord c = false := by
  rw [pyIsSpace_iff] at h
  rw [← Bool.not_eq_true, pyIsWord_iff]
  omega

theorem mem_specialsToSpace (s : List Char) (c : Char) (h : c ∈ specialsToSpace s) :
    pyIsWord c = true ∨ pyIsSpace c = true := by
  rw [specialsToSpace] at h
  obtain ⟨d, _, rfl⟩ := List.mem_map.mp h
  by_cases hd : (pyIsWord d || pyIsSpace d) = true
  · rw [if_pos hd]
    simpa using hd
  · rw [if_neg hd]
    right
    decide

theorem mem_collapseGo (s : List Char) : ∀ (b : Bool) (c : Char), c ∈ collapseGo b s →
    c = ' ' ∨ (c ∈ s ∧ pyIsSpace c = false) := by
  induction s with
  | nil => intro b c h; simp [collapseGo] at h
  | cons d cs ih =>
    intro b c h
    by_cases hd : pyIsSpace d = true
    · rw [collapseGo, if_pos hd] at h
      cases b with
      | true =>
        rcases ih true c h with h1 | h1
        · exact Or.inl h1
        · exact Or.inr ⟨List.mem_cons_of_mem _ h1.1, h1.2⟩
      | false =>
        rcases List.mem_cons.mp h with rfl | h1
        · exact Or.inl rfl
        · rcases ih true c h1 with h2 | h2
          · exact Or.inl h2
          · exact Or.inr ⟨List.mem_cons_of_mem _ h2.1, h2.2⟩
    · rw [collapseGo, if_neg hd] at h
      rcases List.mem_cons.mp h with rfl | h1
      · exact Or.inr ⟨List.mem_cons_self _ _, by simpa using hd⟩
      · rcases ih false c h1 with h2 | h2
        · exact Or.inl h2
        · exact Or.inr ⟨List.mem_cons_of_mem _ h2.1, h2.2⟩

theorem mem_pyStrip (s : List Char) (c : Char) (h : c ∈ pyStrip s) : c ∈ s := by
  rw [pyStrip, List.mem_reverse] at h
  have h1 := (List.dropWhile_sublist _).subset h
  rw [List.mem_reverse] at h1
  exact (List.dropWhile_sublist _).subset h1

theorem collapseGo_head_true (s : List Char) : ∀ c, (collapseGo true s).head? = some c →
    pyIsSpace c = false := by
  induction s with
  | nil => intro c h; simp [collapseGo] at h
  | cons d cs ih =>
    intro c h
    by_cases hd : pyIsSpace d = true
    · rw [collapseGo, if_pos hd, if_pos rfl] at h
      exact ih c h
    · rw [collapseGo, if_neg hd, List.head?_cons] at h
      injection h with h
      subst h
      simpa using hd

theorem collapseGo_chain (s : List Char) : ∀ b,
    List.Chain' (fun a c => ¬(pyIsSpace a = true ∧ pyIsSpace c = true)) (collapseGo b s) := by
  induction s with
  | nil => intro b; rw [collapseGo]; exact List.chain'_nil
  | cons d cs ih =>
    intro b
    by_cases hd : pyIsSpace d = true
    · rw [collapseGo, if_pos hd]
      cases b with
      | true => rw [if_pos rfl]; exact ih true
      | false =>
        rw [if_neg (by simp)]
        rw [List.chain'_cons']
        refine ⟨?_, ih true⟩
        intro c hc
        intro hcon
        rw [collapseGo_head_true cs c hc] at hcon
        exact absurd hcon.2 (by simp)
    · rw [collapseGo, if_neg hd]
      rw [List.chain'_cons']
      refine ⟨?_, ih false⟩
      intro c _
      intro hcon
      rw [hcon.1] at hd
      exact hd rfl

theorem head_dropWhile (p : Char → Bool) : ∀ (s : List Char) (c : Char),
    (s.dropWhile p).head? = some c → p c = false := by
  intro s
  induction s with
  | nil => intro c h; simp at h
  | cons d cs ih =>
    intro c h
    by_cases hd : p d = true
    · rw [List.dropWhile_cons, if_pos hd] at h
      exact ih c h
    · rw [List.dropWhile_cons, if_neg hd, List.head?_cons] at h
      injection h with h
      subst h
      simpa using hd

theorem head_pyStrip (s : List Char) : ∀ c, (pyStrip s).head? = some c →
    pyIsSpace c = false := by
  intro c h
  rw [pyStrip, List.head?_reverse] at h
  have hne : (List.dropWhile pyIsSpace (s.dropWhile pyIsSpace).reverse) ≠ [] := by
    intro hcon
    rw [hcon] at h
    simp at h
  have hlast : (List.dropWhile pyIsSpace (s.dropWhile pyIsSpace).reverse).getLast? =
      ((s.dropWhile pyIsSpace).reverse).getLast? := by
    conv_rhs => rw [← List.takeWhile_append_dropWhile
      (p := pyIsSpace) (l := (s.dropWhile pyIsSpace).reverse)]
    rw [List.getLast?_append_of_ne_nil _ hne]
  rw [hlast, ← List.head?_reverse, List.reverse_reverse] at h
  exact head_dropWhile pyIsSpace _ c h

theorem last_pyStrip (s : List Char) : ∀ c, (pyStrip s).getLast? = some c →
    pyIsSpace c = false := by
  intro c h
  rw [pyStrip, List.getLast?_reverse] at h
  exact head_dropWhile pyIsSpace _ c h

/-!
## Word runs through the pipeline stages
-/

theorem runsAux_chars : ∀ (s acc : List Char), (∀ c ∈ acc, pyIsWord c = true) →
    ∀ r ∈ runsAux acc s, ∀ c ∈ r, pyIsWord c = true := by
  intro s
  induction s with
  | nil =>
    intro acc hacc r hr c hc
    rw [runsAux] at hr
    by_cases h1 : acc = []
    · rw [if_pos h1] at hr
      simp at hr
    · rw [if_neg h1] at hr
      rw [List.mem_singleton.mp hr, List.mem_reverse] at hc
      exact hacc c hc
  | cons d cs ih =>
    intro acc hacc r hr c hc
    rw [runsAux] at hr
    by_cases hw : pyIsWord d = true
    · rw [if_pos hw] at hr
      refine ih (d :: acc) ?_ r hr c hc
      intro e he
      rcases List.mem_cons.mp he with rfl | he
      · exact hw
      · exact hacc e he
    · rw [if_neg hw] at hr
      by_cases h1 : acc = []
      · rw [if_pos h1] at hr
        exact ih [] (by simp) r hr c hc
      · rw [if_neg h1] at hr
        rcases List.mem_cons.mp hr with rfl | hr
        · rw [List.mem_reverse] at hc
          exact hacc c hc
        · exact ih [] (by simp) r hr c hc

theorem runsAux_map (f : Char → Char) (hf : ∀ c, pyIsWord (f c) = pyIsWord c) :
    ∀ (s acc : List Char), runsAux (acc.map f) (s.map f) = (runsAux acc s).map (List.map f) := by
  intro s
  induction s with
  | nil =>
    intro acc
    rw [List.map_nil, runsAux, runsAux]
    by_cases h1 : acc = []
    · rw [if_pos (show acc.map f = [] by rw [h1]; rfl), if_pos h1]
      rfl
    · rw [if_neg (by simpa using h1), if_neg h1]
      rw [List.map_cons, List.map_nil, List.map_reverse]
  | cons d cs ih =>
    intro acc
    rw [List.map_cons, runsAux, runsAux, hf d]
    by_cases hw : pyIsWord d = true
    · rw [if_pos hw, if_pos hw, show f d :: acc.map f = (d :: acc).map f from rfl, ih]
    · rw [if_neg hw, if_neg hw]
      by_cases h1 : acc = []
      · rw [if_pos (show acc.map f = [] by rw [h1]; rfl), if_pos h1]
        exact ih []
      · rw [if_neg (by simpa using h1), if_neg h1]
        rw [List.map_cons, List.map_reverse]
        congr 1
        exact ih []

theorem wordRuns_map (f : Char → Char) (hf : ∀ c, pyIsWord (f c) = pyIsWord c)
    (s : List Char) : wordRuns (s.map f) = (wordRuns s).map (List.map f) := by
  rw [wordRuns, wordRuns]
  exact runsAux_map f hf s []

theorem wordRuns_map_fix (g : Char → Char) (hword : ∀ c, pyIsWord (g c) = pyIsWord c)
    (hfix : ∀ c, pyIsWord c = true → g c = c) (s : List Char) :
    wordRuns (s.map g) = wordRuns s := by
  rw [wordRuns_map g hword s]
  have hr : ∀ r ∈ wordRuns s, List.map g r = r := by
    intro r hrr
    have hchars := runsAux_chars s [] (by simp) r hrr
    calc List.map g r = List.map id r := List.map_congr_left (fun c hc => hfix c (hchars c hc))
    _ = r := List.map_id r
  calc (wordRuns s).map (List.map g) = (wordRuns s).map id :=
    List.map_congr_left (fun r hrr => hr r hrr)
  _ = wordRuns s := List.map_id _

theorem runsAux_collapse (s : List Char) :
    (∀ acc, runsAux acc (collapseGo false s) = runsAux acc s) ∧
      runsAux [] (collapseGo true s) = runsAux [] s := by
  induction s with
  | nil => exact ⟨fun acc => rfl, rfl⟩
  | cons c cs ih =>
    obtain ⟨ihA, ihB⟩ := ih
    by_cases hc : pyIsSpace c = true
    · have hcw : pyIsWord c = false := pyIsSpace_not_word c hc
      constructor
      · intro acc
        rw [collapseGo, if_pos hc, if_neg (by simp)]
        rw [runsAux, if_neg (by decide), ihB]
        rw [runsAux, if_neg (show ¬pyIsWord c = true by simp [hcw])]
      · rw [collapseGo, if_pos hc, if_pos rfl, ihB]
        rw [runsAux, if_neg (by simp [hcw]), if_pos rfl]
    · have hflag : collapseGo true (c :: cs) = collapseGo false (c :: cs) := by
        rw [collapseGo, collapseGo, if_neg hc, if_neg hc]
      have hA : ∀ acc, runsAux acc (collapseGo false (c :: cs)) = runsAux acc (c :: cs) := by
        intro acc
        rw [collapseGo, if_neg hc]
        by_cases hw : pyIsWord c = true
        · rw [runsAux, if_pos hw, runsAux, if_pos hw, ihA (c :: acc)]
        · rw [runsAux, if_neg hw, runsAux, if_neg hw, ihA []]
      exact ⟨hA, by rw [hflag, hA []]⟩

theorem wordRuns_collapseWs (s : List Char) : wordRuns (collapseWs s) = wordRuns s := by
  rw [wordRuns, wordRuns, collapseWs]
  exact (runsAux_collapse s).1 []

theorem runsAux_all_space : ∀ v : List Char, (∀ c ∈ v, pyIsSpace c = true) →
    runsAux [] v = [] := by
  intro v
  induction v with
  | nil => intro _; rfl
  | cons c cs ih =>
    intro h
    have hcw : pyIsWord c = false := pyIsSpace_not_word c (h c (List.mem_cons_self _ _))
    rw [runsAux, if_neg (by simp [hcw]), if_pos rfl]
    exact ih (fun d hd => h d (List.mem_cons_of_mem _ hd))

theorem runsAux_spaces_tail : ∀ (v acc : List Char), (∀ c ∈ v, pyIsSpace c = true) →
    runsAux acc v = if acc = [] then [] else [acc.reverse] := by
  intro v
  induction v with
  | nil => intro acc _; rw [runsAux]
  | cons c cs ih =>
    intro acc h
    have hcw : pyIsWord c = false := pyIsSpace_not_word c (h c (List.mem_cons_self _ _))
    have h' := fun d hd => h d (List.mem_cons_of_mem _ hd)
    rw [runsAux, if_neg (by simp [hcw])]
    by_cases h1 : acc = []
    · rw [if_pos h1, if_pos h1]
      exact runsAux_all_space cs h'
    · rw [if_neg h1, if_neg h1, runsAux_all_space cs h']

theorem runsAux_append_spaces : ∀ (u acc v : List Char), (∀ c ∈ v, pyIsSpace c = true) →
    runsAux acc (u ++ v) = runsAux acc u := by
  intro u
  induction u with
  | nil =>
    intro acc v h
    rw [List.nil_append, runsAux_spaces_tail v acc h, runsAux]
  | cons d u' ih =>
    intro acc v h
    rw [List.cons_append, runsAux, runsAux]
    by_cases hw : pyIsWord d = true
    · rw [if_pos hw, if_pos hw, ih (d :: acc) v h]
    · rw [if_neg hw, if_neg hw]
      by_cases h1 : acc = []
      · rw [if_pos h1, if_pos h1, ih [] v h]
      · rw [if_neg h1, if_neg h1, ih [] v h]

theorem runsAux_dropWhile_space (s : List Char) :
    runsAux [] (s.dropWhile pyIsSpace) = runsAux [] s := by
  induction s with
  | nil => rfl
  | cons c cs ih =>
    by_cases hc : pyIsSpace c = true
    · have hcw : pyIsWord c = false := pyIsSpace_not_word c hc
      rw [List.dropWhile_cons, if_pos hc, ih, runsAux, if_neg (by simp [hcw]), if_pos rfl]
    · rw [List.dropWhile_cons, if_neg hc]

theorem wordRuns_pyStrip (s : List Char) : wordRuns (pyStrip s) = wordRuns s := by
  rw [wordRuns, wordRuns, pyStrip]
  have key : ∀ t : List Char,
      runsAux [] (List.dropWhile pyIsSpace t.reverse).reverse = runsAux [] t := by
    intro t
    have hdecomp : t = (List.dropWhile pyIsSpace t.reverse).reverse ++
        (List.takeWhile pyIsSpace t.reverse).reverse := by
      rw [← List.reverse_append, List.takeWhile_append_dropWhile, List.reverse_reverse]
    conv_rhs => rw [hdecomp]
    rw [runsAux_append_spaces]
    intro c hc
    rw [List.mem_reverse] at hc
    exact List.mem_takeWhile_imp hc
  rw [key (s.dropWhile pyIsSpace), runsAux_dropWhile_space]

theorem runsAux_nonword_start : ∀ (u v : List Char), (∀ c ∈ u, pyIsWord c = false) →
    runsAux [] (u ++ v) = runsAux [] v := by
  intro u
  induction u with
  | nil => intro v _; rw [List.nil_append]
  | cons c cs ih =>
    intro v h
    rw [List.cons_append, runsAux,
      if_neg (by simp [h c (List.mem_cons_self _ _)]), if_pos rfl]
    exact ih v (fun d hd => h d (List.mem_cons_of_mem _ hd))

theorem runsAux_run_boundary (c : Char) (w : List Char) (hc : pyIsWord c = false) :
    ∀ (u acc : List Char), (∀ d ∈ u, pyIsWord d = true) →
      runsAux acc (u ++ c :: w) =
        if acc = [] ∧ u = [] then runsAux [] w
        else (acc.reverse ++ u) :: runsAux [] w := by
  intro u
  induction u with
  | nil =>
    intro acc _
    rw [List.nil_append, runsAux, if_neg (by simp [hc])]
    by_cases h1 : acc = []
    · rw [if_pos h1, if_pos ⟨h1, rfl⟩]
    · rw [if_neg h1, if_neg (by simp [h1])]
      simp
  | cons d u' ih =>
    intro acc h
    rw [List.cons_append, runsAux, if_pos (h d (List.mem_cons_self _ _))]
    rw [ih (d :: acc) (fun e he => h e (List.mem_cons_of_mem _ he))]
    rw [if_neg (by simp)]
    rw [if_neg (by simp)]
    simp

theorem runsAux_all_word : ∀ (w acc : List Char), (∀ c ∈ w, pyIsWord c = true) →
    runsAux acc w = if acc = [] ∧ w = [] then [] else [acc.reverse ++ w] := by
  intro w
  induction w with
  | nil =>
    intro acc _
    rw [runsAux]
    by_cases h1 : acc = []
    · rw [if_pos h1, if_pos ⟨h1, rfl⟩]
    · rw [if_neg h1, if_neg (by simp [h1])]
      simp
  | cons d w' ih =>
    intro acc h
    rw [runsAux, if_pos (h d (List.mem_cons_self _ _)),
      ih (d :: acc) (fun e he => h e (List.mem_cons_of_mem _ he))]
    rw [if_neg (by simp), if_neg (by simp)]
    simp

theorem dejunkAux_runs (terms : List (List Char)) (repl : List Char)
    (hrep : ∀ c ∈ repl, pyIsWord c = false) :
    ∀ (s acc : List Char), (∀ c ∈ acc, pyIsWord c = true) →
      ∀ r ∈ runsAux [] (dejunkAux terms repl acc s), lowerL r ∉ terms := by
  intro s
  induction s with
  | nil =>
    intro acc hacc r hr
    rw [dejunkAux, emitRun] at hr
    by_cases h1 : acc = []
    · rw [if_pos h1] at hr
      rw [runsAux, if_pos rfl] at hr
      simp at hr
    · rw [if_neg h1] at hr
      by_cases h2 : lowerL acc.reverse ∈ terms
      · rw [if_pos h2] at hr
        rw [show repl = repl ++ [] from by simp, runsAux_nonword_start repl [] hrep] at hr
        rw [runsAux, if_pos rfl] at hr
        simp at hr
      · rw [if_neg h2] at hr
        have hword : ∀ d ∈ acc.reverse, pyIsWord d = true := by
          intro d hd
          rw [List.mem_reverse] at hd
          exact hacc d hd
        rw [runsAux_all_word acc.reverse [] hword, if_neg (by simp [h1])] at hr
        have hre : r = acc.reverse := by simpa using hr
        rw [hre]
        exact h2
  | cons c cs ih =>
    intro acc hacc r hr
    rw [dejunkAux] at hr
    by_cases hw : pyIsWord c = true
    · rw [if_pos hw] at hr
      refine ih (c :: acc) ?_ r hr
      intro d hd
      rcases List.mem_cons.mp hd with rfl | hd
      · exact hw
      · exact hacc d hd
    · rw [if_neg hw, emitRun] at hr
      by_cases h1 : acc = []
      · rw [if_pos h1, List.nil_append] at hr
        rw [runsAux, if_neg hw, if_pos rfl] at hr
        exact ih [] (by simp) r hr
      · by_cases h2 : lowerL acc.reverse ∈ terms
        · rw [if_neg h1, if_pos h2] at hr
          rw [runsAux_nonword_start repl _ hrep] at hr
          rw [runsAux, if_neg hw, if_pos rfl] at hr
          exact ih [] (by simp) r hr
        · rw [if_neg h1, if_neg h2] at hr
          have hword : ∀ d ∈ acc.reverse, pyIsWord d = true := by
            intro d hd
            rw [List.mem_reverse] at hd
            exact hacc d hd
          rw [runsAux_run_boundary c (dejunkAux terms repl [] cs)
            (Bool.not_eq_true _ ▸ Bool.of_not_eq_true hw) acc.reverse [] hword] at hr
          rw [if_neg (by simp [h1])] at hr
          rcases List.mem_cons.mp hr with rfl | hr
          · simpa using h2
          · exact ih [] (by simp) r hr

theorem dejunk_runs (terms : List (List Char)) (repl : List Char) (s : List Char)
    (hrep : ∀ c ∈ repl, pyIsWord c = false) :
    ∀ r ∈ wordRuns (dejunk terms repl s), lowerL r ∉ terms := by
  intro r hr
  exact dejunkAux_runs terms repl hrep s [] (by simp) r hr

/-!
## The normal form of the pipeline output
-/

theorem mem_specialsToSpace_or (s : List Char) (c : Char) (h : c ∈ specialsToSpace s) :
    c ∈ s ∨ c = ' ' := by
  rw [specialsToSpace] at h
  obtain ⟨d, hd, rfl⟩ := List.mem_map.mp h
  by_cases hdc : (pyIsWord d || pyIsSpace d) = true
  · rw [if_pos hdc]
    exact Or.inl hd
  · rw [if_neg hdc]
    exact Or.inr rfl

/-- The `U+0130`-freeness of a string survives the space-replacement,
collapse and strip stages. -/
theorem no304_norm_stages (z : List Char) (h304 : ∀ c ∈ z, c.toNat ≠ 304) :
    ∀ c ∈ pyStrip (collapseWs (specialsToSpace z)), c.toNat ≠ 304 := by
  intro c hc
  have h1 := mem_pyStrip _ _ hc
  rcases mem_collapseGo _ false c h1 with rfl | ⟨h2, _⟩
  · decide
  · rcases mem_specialsToSpace_or _ c h2 with h3 | rfl
    · exact h304 c h3
    · decide

theorem norm_chars (z : List Char) (c : Char) (h304 : ∀ c ∈ z, c.toNat ≠ 304)
    (h : c ∈ lowerL (pyStrip (collapseWs (specialsToSpace z)))) :
    (pyIsWord c = true ∧ lowerChar c = c) ∨ c = ' ' := by
  rw [lowerL_eq_map _ (no304_norm_stages z h304)] at h
  obtain ⟨d, hd, rfl⟩ := List.mem_map.mp h
  have hd2 := mem_pyStrip _ _ hd
  rcases mem_collapseGo _ false d hd2 with rfl | ⟨hd3, hdsp⟩
  · right
    exact lowerChar_space
  · rcases mem_specialsToSpace _ d hd3 with hw | hs
    · left
      exact ⟨by rw [pyIsWord_lowerChar]; exact hw, lowerChar_idem d⟩
    · rw [hs] at hdsp
      cases hdsp

theorem chain_pyStrip (s : List Char)
    (h : List.Chain' (fun a b => ¬(pyIsSpace a = true ∧ pyIsSpace b = true)) s) :
    List.Chain' (fun a b => ¬(pyIsSpace a = true ∧ pyIsSpace b = true)) (pyStrip s) := by
  rw [pyStrip]
  have h1 := h.suffix (List.dropWhile_suffix pyIsSpace)
  have h2 : List.Chain' (fun a b => ¬(pyIsSpace a = true ∧ pyIsSpace b = true))
      (s.dropWhile pyIsSpace).reverse := by
    rw [List.chain'_reverse]
    exact h1.imp (fun {a b} hab hcon => hab ⟨hcon.2, hcon.1⟩)
  have h3 := h2.suffix (List.dropWhile_suffix pyIsSpace)
  rw [List.chain'_reverse]
  exact h3.imp (fun {a b} hab hcon => hab ⟨hcon.2, hcon.1⟩)

theorem norm_chain (z : List Char) (h304 : ∀ c ∈ z, c.toNat ≠ 304) :
    List.Chain' (fun a b => ¬(pyIsSpace a = true ∧ pyIsSpace b = true))
      (lowerL (pyStrip (collapseWs (specialsToSpace z)))) := by
  have h2 := chain_pyStrip _ (collapseGo_chain (specialsToSpace z) false)
  rw [lowerL_eq_map _ (no304_norm_stages z h304), List.chain'_map]
  refine h2.imp ?_
  intro a b hab hcon
  apply hab
  rw [pyIsSpace_lowerChar, pyIsSpace_lowerChar] at hcon
  exact hcon

theorem norm_head (z : List Char) (c : Char) (h304 : ∀ c ∈ z, c.toNat ≠ 304)
    (h : (lowerL (pyStrip (collapseWs (specialsToSpace z)))).head? = some c) :
    pyIsSpace c = false := by
  rw [lowerL_eq_map _ (no304_norm_stages z h304), List.head?_map] at h
  cases hw : (pyStrip (collapseWs (specialsToSpace z))).head? with
  | none => rw [hw] at h; cases h
  | some d =>
    rw [hw] at h
    injection h with h
    subst h
    rw [pyIsSpace_lowerChar]
    exact head_pyStrip _ d hw

theorem norm_last (z : List Char) (c : Char) (h304 : ∀ c ∈ z, c.toNat ≠ 304)
    (h : (lowerL (pyStrip (collapseWs (specialsToSpace z)))).getLast? = some c) :
    pyIsSpace c = false := by
  rw [lowerL_eq_map _ (no304_norm_stages z h304), ← List.head?_reverse,
    ← List.map_reverse, List.head?_map] at h
  cases hw : (pyStrip (collapseWs (specialsToSpace z))).reverse.head? with
  | none => rw [hw] at h; cases h
  | some d =>
    rw [hw] at h
    injection h with h
    subst h
    rw [pyIsSpace_lowerChar]
    rw [List.head?_reverse] at hw
    exact last_pyStrip _ d hw

theorem norm_runs (terms : List (List Char)) (z : List Char)
    (h304 : ∀ c ∈ z, c.toNat ≠ 304)
    (hterm : ∀ r ∈ wordRuns z, lowerL r ∉ terms) :
    ∀ r ∈ wordRuns (lowerL (pyStrip (collapseWs (specialsToSpace z)))), lowerL r ∉ terms := by
  intro r hr
  rw [lowerL_eq_map _ (no304_norm_stages z h304),
    wordRuns_map lowerChar pyIsWord_lowerChar] at hr
  obtain ⟨r', hr', rfl⟩ := List.mem_map.mp hr
  rw [wordRuns_pyStrip, wordRuns_collapseWs] at hr'
  have hspec : wordRuns (specialsToSpace z) = wordRuns z := by
    rw [specialsToSpace]
    refine wordRuns_map_fix _ ?_ ?_ z
    · intro c
      by_cases hc : (pyIsWord c || pyIsSpace c) = true
      · rw [if_pos hc]
      · rw [if_neg hc]
        simp only [Bool.or_eq_true, not_or, Bool.not_eq_true] at hc
        rw [hc.1]
        decide
    · intro c hc
      rw [if_pos (by rw [hc]; rfl)]
  rw [hspec] at hr'
  have hll : lowerL (List.map lowerChar r') = lowerL r' := lowerL_map_lowerChar r'
  rw [hll]
  exact hterm r' hr'

/-!
## Idempotence of the two normalizers
-/

/-- The `U+0130`-freeness of a name survives the extension, bracket and
junk-removal stages of `main.py`. -/
theorem MainPy.stage_no304_main (x : List Char) (hx : ∀ c ∈ x, c.toNat ≠ 304) :
    ∀ c ∈ dejunk MainPy.common_terms [] (stripSqBrackets (stripExt MainPy.nameExts x)),
      c.toNat ≠ 304 := by
  intro c hc
  rcases mem_dejunk _ _ _ _ hc with h1 | h1
  · exact hx c (mem_stripExt _ _ _ (mem_stripSqBrackets _ _ h1))
  · cases h1

/-- The `U+0130`-freeness of a name survives the extension, bracket and
junk-removal stages of `upgraded.py`. -/
theorem UpgPy.stage_no304_upg (x : List Char) (hx : ∀ c ∈ x, c.toNat ≠ 304) :
    ∀ c ∈ dejunk UpgPy.common_terms [' '] (stripBrackets2 (stripExt UpgPy.nameExts x)),
      c.toNat ≠ 304 := by
  intro c hc
  rcases mem_dejunk _ _ _ _ hc with h1 | h1
  · rcases mem_stripBrackets2 _ _ h1 with h2 | rfl
    · exact hx c (mem_stripExt _ _ _ h2)
    · decide
  · rw [List.mem_singleton.mp h1]
    decide

theorem MainPy.extract_core_name_idem_main (x : List Char)
    (hx : ∀ c ∈ x, c.toNat ≠ 304) :
    MainPy.extract_core_name (MainPy.extract_core_name x) = MainPy.extract_core_name x := by
  have hz : MainPy.extract_core_name x = lowerL (pyStrip (collapseWs (specialsToSpace
      (dejunk MainPy.common_terms [] (stripSqBrackets (stripExt MainPy.nameExts x)))))) := by
    rw [MainPy.extract_core_name]
  have h304z := MainPy.stage_no304_main x hx
  set y := MainPy.extract_core_name x with hy
  have h304y : ∀ c ∈ y, c.toNat ≠ 304 := by
    rw [hz]
    exact fun c hc => lowerL_no304 _ c hc
  have hchars : ∀ c ∈ y, (pyIsWord c = true ∧ lowerChar c = c) ∨ c = ' ' := by
    rw [hz]
    exact fun c hc => norm_chars _ c h304z hc
  have hchain : List.Chain' (fun a b => ¬(pyIsSpace a = true ∧ pyIsSpace b = true)) y := by
    rw [hz]
    exact norm_chain _ h304z
  have hhead : ∀ c, y.head? = some c → pyIsSpace c = false := by
    rw [hz]
    exact fun c hc => norm_head _ c h304z hc
  have hlast : ∀ c, y.getLast? = some c → pyIsSpace c = false := by
    rw [hz]
    exact fun c hc => norm_last _ c h304z hc
  have hruns : ∀ r ∈ wordRuns y, lowerL r ∉ MainPy.common_terms := by
    rw [hz]
    exact norm_runs _ _ h304z (dejunk_runs _ [] _ (by simp))
  have hdot : ∀ c ∈ y, c ≠ '.' := by
    intro c hc heq
    subst heq
    rcases hchars _ hc with ⟨hw, _⟩ | hsp
    · exact absurd hw (by decide)
    · exact absurd hsp (by decide)
  have hbr : ∀ c ∈ y, c ≠ '[' := by
    intro c hc heq
    subst heq
    rcases hchars _ hc with ⟨hw, _⟩ | hsp
    · exact absurd hw (by decide)
    · exact absurd hsp (by decide)
  have hws : ∀ c ∈ y, pyIsWord c = true ∨ pyIsSpace c = true := by
    intro c hc
    rcases hchars _ hc with ⟨hw, _⟩ | hsp
    · exact Or.inl hw
    · right
      rw [hsp]
      decide
  have hsponly : ∀ c ∈ y, pyIsSpace c = true → c = ' ' := by
    intro c hc hsp
    rcases hchars _ hc with ⟨hw, _⟩ | h
    · rw [pyIsWord_not_space c hw] at hsp
      cases hsp
    · exact h
  have hlow : ∀ c ∈ y, lowerChar c = c := by
    intro c hc
    rcases hchars _ hc with ⟨_, hl⟩ | h
    · exact hl
    · rw [h]
      exact lowerChar_space
  rw [MainPy.extract_core_name, stripExt_id _ _ hdot, stripSqBrackets_id _ hbr,
    dejunk_id _ _ _ hruns, specialsToSpace_id _ hws, collapseWs_id _ hsponly hchain,
    pyStrip_id _ hhead hlast, lowerL_id _ hlow h304y]

theorem UpgPy.extract_core_name_idem_upg (x : List Char)
    (hx : ∀ c ∈ x, c.toNat ≠ 304) :
    UpgPy.extract_core_name (UpgPy.extract_core_name x) = UpgPy.extract_core_name x := by
  have hz : UpgPy.extract_core_name x = lowerL (pyStrip (collapseWs (specialsToSpace
      (dejunk UpgPy.common_terms [' '] (stripBrackets2 (stripExt UpgPy.nameExts x)))))) := by
    rw [UpgPy.extract_core_name]
  have h304z := UpgPy.stage_no304_upg x hx
  set y := UpgPy.extract_core_name x with hy
  have h304y : ∀ c ∈ y, c.toNat ≠ 304 := by
    rw [hz]
    exact fun c hc => lowerL_no304 _ c hc
  have hchars : ∀ c ∈ y, (pyIsWord c = true ∧ lowerChar c = c) ∨ c = ' ' := by
    rw [hz]
    exact fun c hc => norm_chars _ c h304z hc
  have hchain : List.Chain' (fun a b => ¬(pyIsSpace a = true ∧ pyIsSpace b = true)) y := by
    rw [hz]
    exact norm_chain _ h304z
  have hhead : ∀ c, y.head? = some c → pyIsSpace c = false := by
    rw [hz]
    exact fun c hc => norm_head _ c h304z hc
  have hlast : ∀ c, y.getLast? = some c → pyIsSpace c = false := by
    rw [hz]
    exact fun c hc => norm_last _ c h304z hc
  have hruns : ∀ r ∈ wordRuns y, lowerL r ∉ UpgPy.common_terms := by
    rw [hz]
    refine norm_runs _ _ h304z (dejunk_runs _ [' '] _ ?_)
    intro c hc
    rw [List.mem_singleton.mp hc]
    decide
  have hdot : ∀ c ∈ y, c ≠ '.' := by
    intro c hc heq
    subst heq
    rcases hchars _ hc with ⟨hw, _⟩ | hsp
    · exact absurd hw (by decide)
    · exact absurd hsp (by decide)
  have hbr : ∀ c ∈ y, c ≠ '[' ∧ c ≠ '(' := by
    intro c hc
    constructor <;> intro heq <;> subst heq <;>
      rcases hchars _ hc with ⟨hw, _⟩ | hsp
    · exact absurd hw (by decide)
    · exact absurd hsp (by decide)
    · exact absurd hw (by decide)
    · exact absurd hsp (by decide)
  have hws : ∀ c ∈ y, pyIsWord c = true ∨ pyIsSpace c = true := by
    intro c hc
    rcases hchars _ hc with ⟨hw, _⟩ | hsp
    · exact Or.inl hw
    · right
      rw [hsp]
      decide
  have hsponly : ∀ c ∈ y, pyIsSpace c = true → c = ' ' := by
    intro c hc hsp
    rcases hchars _ hc with ⟨hw, _⟩ | h
    · rw [pyIsWord_not_space c hw] at hsp
      cases hsp
    · exact h
  have hlow : ∀ c ∈ y, lowerChar c = c := by
    intro c hc
    rcases hchars _ hc with ⟨_, hl⟩ | h
    · exact hl
    · rw [h]
      exact lowerChar_space
  rw [UpgPy.extract_core_name, stripExt_id _ _ hdot, stripBrackets2_id _ hbr,
    dejunk_id _ _ _ hruns, specialsToSpace_id _ hws, collapseWs_id _ hsponly hchain,
    pyStrip_id _ hhead hlast, lowerL_id _ hlow h304y]

/-!
## Extension stripping on the marker suffix `.gifs`
-/

theorem suffix_append_of_length_le {u v t : List Char} (h : u.length ≤ v.length) :
    u <:+ (t ++ v) ↔ u <:+ v := by
  constructor
  · rintro ⟨w, hw⟩
    have hlen : t.length ≤ w.length := by
      have hl := congrArg List.length hw
      simp only [List.length_append] at hl
      omega
    have htake : w.take t.length = t := by
      have h1 : (w ++ u).take t.length = w.take t.length :=
        List.take_append_of_le_length hlen
      rw [hw, List.take_left] at h1
      exact h1.symm
    refine ⟨w.drop t.length, ?_⟩
    have h2 : (w.take t.length ++ w.drop t.length) ++ u = t ++ v := by
      rw [List.take_append_drop]
      exact hw
    rw [htake, List.append_assoc] at h2
    exact List.append_cancel_left h2
  · rintro ⟨w, hw⟩
    exact ⟨t ++ w, by rw [List.append_assoc, hw]⟩

theorem isSuffixOf_append_of_le (u v t : List Char) (h : u.length ≤ v.length) :
    u.isSuffixOf (t ++ v) = u.isSuffixOf v := by
  rw [Bool.eq_iff_iff, List.isSuffixOf_iff_suffix, List.isSuffixOf_iff_suffix]
  exact suffix_append_of_length_le h

theorem find?_congr_chars (p q : List Char → Bool) :
    ∀ l : List (List Char), (∀ a ∈ l, p a = q a) → l.find? p = l.find? q := by
  intro l
  induction l with
  | nil => intro _; rfl
  | cons a l ih =>
    intro h
    rw [List.find?_cons, List.find?_cons, h a (List.mem_cons_self _ _),
      ih (fun b hb => h b (List.mem_cons_of_mem _ hb))]

theorem lowerL_append_gifs (s : List Char) :
    lowerL (s ++ ['.', 'g', 'i', 'f', 's']) = lowerL s ++ ['.', 'g', 'i', 'f', 's'] := by
  rw [lowerL_append]
  congr 1

theorem MainPy.stripExt_gifs_main (s : List Char) :
    stripExt MainPy.nameExts (s ++ ['.', 'g', 'i', 'f', 's']) = s := by
  rw [stripExt]
  have hcong : ∀ e ∈ MainPy.nameExts,
      (('.' :: e).isSuffixOf (lowerL (s ++ ['.', 'g', 'i', 'f', 's']))) =
        (('.' :: e).isSuffixOf (['.', 'g', 'i', 'f', 's'])) := by
    intro e he
    have hle : e.length ≤ 4 := by
      have hall : ∀ e ∈ MainPy.nameExts, e.length ≤ 4 := by decide
      exact hall e he
    rw [lowerL_append_gifs]
    exact isSuffixOf_append_of_le _ _ _ (by simp; omega)
  rw [find?_congr_chars _ _ _ hcong]
  rw [show MainPy.nameExts.find? (fun e => ('.' :: e).isSuffixOf (['.', 'g', 'i', 'f', 's'])) =
    some ['g', 'i', 'f', 's'] from by decide]
  simp only [List.length_append, List.length_cons, List.length_nil]
  rw [show s.length + (0 + 1 + 1 + 1 + 1 + 1) - (4 + 1) = s.length from by omega]
  exact List.take_left s _

theorem UpgPy.stripExt_gifs_upg (s : List Char) :
    stripExt UpgPy.nameExts (s ++ ['.', 'g', 'i', 'f', 's']) = s ++ ['.', 'g', 'i', 'f', 's'] := by
  rw [stripExt]
  have hcong : ∀ e ∈ UpgPy.nameExts,
      (('.' :: e).isSuffixOf (lowerL (s ++ ['.', 'g', 'i', 'f', 's']))) =
        (('.' :: e).isSuffixOf (['.', 'g', 'i', 'f', 's'])) := by
    intro e he
    have hle : e.length ≤ 4 := by
      have hall : ∀ e ∈ UpgPy.nameExts, e.length ≤ 4 := by decide
      exact hall e he
    rw [lowerL_append_gifs]
    exact isSuffixOf_append_of_le _ _ _ (by simp; omega)
  rw [find?_congr_chars _ _ _ hcong]
  rw [show UpgPy.nameExts.find? (fun e => ('.' :: e).isSuffixOf (['.', 'g', 'i', 'f', 's'])) =
    none from by decide]

/-!
## Bracket and parenthesis groups
-/

theorem findCloseSq_through (z : List Char) : ∀ y : List Char,
    (∀ c ∈ y, c ≠ ']' ∧ c ≠ '\n') → findCloseSq (y ++ ']' :: z) = some z := by
  intro y
  induction y with
  | nil =>
    intro _
    rw [List.nil_append, findCloseSq, if_pos (by decide)]
  | cons c y ih =>
    intro h
    obtain ⟨h1, h2⟩ := h c (List.mem_cons_self _ _)
    rw [List.cons_append, findCloseSq, if_neg (by simp [h1]), if_neg (by simp [h2])]
    exact ih (fun d hd => h d (List.mem_cons_of_mem _ hd))

theorem findCloseBr_through (z : List Char) : ∀ y : List Char,
    (∀ c ∈ y, c ≠ ']' ∧ c ≠ ')' ∧ c ≠ '\n') →
    ∀ cl : Char, (cl = ']' ∨ cl = ')') → findCloseBr (y ++ cl :: z) = some z := by
  intro y
  induction y with
  | nil =>
    intro _ cl hcl
    rw [List.nil_append, findCloseBr, if_pos (by rcases hcl with rfl | rfl <;> decide)]
  | cons c y ih =>
    intro h cl hcl
    obtain ⟨h1, h2, h3⟩ := h c (List.mem_cons_self _ _)
    rw [List.cons_append, findCloseBr, if_neg (by simp [h1, h2]), if_neg (by simp [h3])]
    exact ih (fun d hd => h d (List.mem_cons_of_mem _ hd)) cl hcl

theorem stripSqBrackets_group (y z : List Char) (hy : ∀ c ∈ y, c ≠ ']' ∧ c ≠ '\n') :
    stripSqBrackets ('[' :: (y ++ ']' :: z)) = stripSqBrackets z := by
  rw [stripSqBrackets]
  rw [if_pos (by decide)]
  rw [findCloseSq_through z y hy]

theorem stripSqBrackets_through (u : List Char) (hu : ∀ c ∈ u, c ≠ '[') :
    ∀ z, stripSqBrackets (u ++ z) = u ++ stripSqBrackets z := by
  induction u with
  | nil => intro z; rw [List.nil_append, List.nil_append]
  | cons c u ih =>
    intro z
    rw [List.cons_append, stripSqBrackets,
      if_neg (by simp [hu c (List.mem_cons_self _ _)]), List.cons_append,
      ih (fun d hd => hu d (List.mem_cons_of_mem _ hd)) z]

theorem stripBrackets2_group (y z : List Char)
    (hy : ∀ c ∈ y, c ≠ ']' ∧ c ≠ ')' ∧ c ≠ '\n')
    (o : Char) (ho : o = '[' ∨ o = '(') (cl : Char) (hcl : cl = ']' ∨ cl = ')') :
    stripBrackets2 (o :: (y ++ cl :: z)) = ' ' :: stripBrackets2 z := by
  rw [stripBrackets2]
  rw [if_pos (by rcases ho with rfl | rfl <;> decide)]
  rw [findCloseBr_through z y hy cl hcl]


/-- Closed form of the strict selector on a single candidate. -/
theorem MainPy.find_best_singleton_main (folder f : List Char) (t : ℚ)
    (hf : isVideoFile f = true) :
    MainPy.find_best_video_match folder [f] t =
      (if 0 < MainPy.strictTotal (MainPy.extract_core_name folder)
            (MainPy.extract_core_name f) ∧
          t ≤ MainPy.strictTotal (MainPy.extract_core_name folder)
            (MainPy.extract_core_name f)
       then (some f, MainPy.strictTotal (MainPy.extract_core_name folder)
            (MainPy.extract_core_name f))
       else (none, 0)) := by
  rw [MainPy.find_best_video_match, List.filter_cons_of_pos hf, List.filter_nil]
  simp only [List.map_cons, List.map_nil]
  rw [bestFold]
  split
  · rw [bestFold]
  · rw [bestFold]

/-- Closed form of the strict selector on a single candidate. -/
theorem UpgPy.find_best_singleton_upg (folder f : List Char) (t : ℚ)
    (hf : isVideoFile f = true) :
    UpgPy.find_best_video_match folder [f] t =
      (if 0 < UpgPy.strictTotal (UpgPy.extract_core_name folder)
            (UpgPy.extract_core_name f) ∧
          t ≤ UpgPy.strictTotal (UpgPy.extract_core_name folder)
            (UpgPy.extract_core_name f)
       then (some f, UpgPy.strictTotal (UpgPy.extract_core_name folder)
            (UpgPy.extract_core_name f))
       else (none, 0)) := by
  rw [UpgPy.find_best_video_match, List.filter_cons_of_pos hf, List.filter_nil]
  simp only [List.map_cons, List.map_nil]
  rw [bestFold]
  split
  · rw [bestFold]
  · rw [bestFold]

/-- Closed form of the relaxed selector of `main.py` on a single candidate. -/
theorem MainPy.find_videos_singleton_main (folder f : List Char)
    (hf : isVideoFile f = true) :
    MainPy.find_videos_by_content_similarity folder [f] =
      (if 6/10 < MainPy.relaxedTotal folder f
       then (some f, MainPy.relaxedTotal folder f) else (none, 0)) := by
  rw [MainPy.find_videos_by_content_similarity, List.filter_cons_of_pos hf,
    List.filter_nil, List.filterMap_cons, List.filterMap_nil]
  rw [MainPy.relaxedEntry]
  by_cases hcond : (6/10 : ℚ) < MainPy.relaxedTotal folder f
  · rw [if_pos hcond, if_pos hcond]
    rw [pickMax, List.foldl_nil]
  · rw [if_neg hcond, if_neg hcond]
    rw [pickMax]
/-!
## Claim theorems
-/

/-- C6 counterexample: normalization is *not* idempotent — `str.lower()`
maps `İ` (`U+0130`) to `i` followed by the combining dot `U+0307`, which
is neither a word character nor whitespace, so the second pass replaces
it with a space: in both files the core of a name stem `İ` is
`['i', U+0307]`, and normalizing that core again yields `['i']`. -/
theorem C6_counterexample :
    MainPy.extract_core_name [Char.ofNat 304, '.', 'g', 'i', 'f', 's'] =
      [Char.ofNat 105, Char.ofNat 775] ∧
    MainPy.extract_core_name (MainPy.extract_core_name
      [Char.ofNat 304, '.', 'g', 'i', 'f', 's']) = [Char.ofNat 105] ∧
    UpgPy.extract_core_name [Char.ofNat 304, '.', 'g', 'i', 'f'] =
      [Char.ofNat 105, Char.ofNat 775] ∧
    UpgPy.extract_core_name (UpgPy.extract_core_name
      [Char.ofNat 304, '.', 'g', 'i', 'f']) = [Char.ofNat 105] := by
  have h1 : MainPy.extract_core_name [Char.ofNat 304, '.', 'g', 'i', 'f', 's'] =
      [Char.ofNat 105, Char.ofNat 775] :=
    MainPy.extract_core_name_eval_main _ [Char.ofNat 304] _ (by decide) (by decide)
  have h2 : MainPy.extract_core_name [Char.ofNat 105, Char.ofNat 775] =
      [Char.ofNat 105] :=
    MainPy.extract_core_name_eval_main _ [Char.ofNat 105, Char.ofNat 775] _
      (by decide) (by decide)
  have h3 : UpgPy.extract_core_name [Char.ofNat 304, '.', 'g', 'i', 'f'] =
      [Char.ofNat 105, Char.ofNat 775] :=
    UpgPy.extract_core_name_eval_upg _ [Char.ofNat 304] _ (by decide) (by decide)
  have h4 : UpgPy.extract_core_name [Char.ofNat 105, Char.ofNat 775] =
      [Char.ofNat 105] :=
    UpgPy.extract_core_name_eval_upg _ [Char.ofNat 105, Char.ofNat 775] _
      (by decide) (by decide)
  exact ⟨h1, by rw [h1, h2], h3, by rw [h3, h4]⟩

/-- C6 (amended): on names whose characters are ASCII — where `str.lower`
never expands and the character classes are exact — normalization is
idempotent in both files: `extract_core_name (extract_core_name x) =
extract_core_name x`. -/
theorem C6_amended (x : List Char) (hx : ∀ c ∈ x, c.toNat < 128) :
    MainPy.extract_core_name (MainPy.extract_core_name x) = MainPy.extract_core_name x ∧
    UpgPy.extract_core_name (UpgPy.extract_core_name x) = UpgPy.extract_core_name x :=
  ⟨MainPy.extract_core_name_idem_main x (fun c hc => by have := hx c hc; omega),
   UpgPy.extract_core_name_idem_upg x (fun c hc => by have := hx c hc; omega)⟩

/-- C6 witness: idempotence at a concrete ASCII name. -/
theorem C6_witness :
    (∀ c ∈ ("Great_Movie [x] HD.mp4").toList, c.toNat < 128) ∧
    MainPy.extract_core_name (MainPy.extract_core_name
      (("Great_Movie [x] HD.mp4").toList)) =
      MainPy.extract_core_name (("Great_Movie [x] HD.mp4").toList) :=
  ⟨by decide, (C6_amended (("Great_Movie [x] HD.mp4").toList) (by decide)).1⟩

/-- C10: the strict combined score never exceeds `0.94 = 47/50`
(`0.5·1 + 0.3·0.8 + 0.2·1`) in either file, so for any strict threshold
above `47/50` the strict strategy returns no match on any input. -/
theorem C10_strict_cap (fc vc folder : List Char) (files : List (List Char)) (t : ℚ)
    (ht : 47/50 < t) :
    MainPy.strictTotal fc vc ≤ 47/50 ∧ UpgPy.strictTotal fc vc ≤ 47/50 ∧
    MainPy.find_best_video_match folder files t = (none, 0) ∧
    UpgPy.find_best_video_match folder files t = (none, 0) := by
  refine ⟨MainPy.strictTotal_le_main fc vc, UpgPy.strictTotal_le_upg fc vc, ?_, ?_⟩
  · exact MainPy.find_best_none_main folder files t
      (fun f _ _ => lt_of_le_of_lt (MainPy.strictTotal_le_main _ _) ht)
  · exact UpgPy.find_best_none_upg folder files t
      (fun f _ _ => lt_of_le_of_lt (UpgPy.strictTotal_le_upg _ _) ht)

/-- C10 witness: at threshold `0.95` the strict strategy matches nothing. -/
theorem C10_witness :
    ((47 : ℚ)/50 < 19/20) ∧
    MainPy.find_best_video_match (("a.gifs").toList) [("a.mp4").toList] (19/20) =
      (none, 0) :=
  ⟨by norm_num,
    (C10_strict_cap [] [] (("a.gifs").toList) [("a.mp4").toList] (19/20)
      (by norm_num)).2.2.1⟩

/-- C7 counterexample: the `SequenceMatcher` ratio is *not* symmetric
(`ratio("baaa","aaba") = 1/2` but `ratio("aaba","baaa") = 3/4`), and in
`main.py` the unguarded score of two empty strings is `1`, not `0`
(`upgraded.py` guards it to `0`). -/
theorem C7_counterexample :
    seqSimilarity (("baaa").toList) (("aaba").toList) = 1/2 ∧
    seqSimilarity (("aaba").toList) (("baaa").toList) = 3/4 ∧
    MainPy.similarity_score [] [] = 1 ∧
    UpgPy.similarity_score [] [] = 0 := by
  refine ⟨?_, ?_, ?_, ?_⟩
  · rw [seqSimilarity_eq _ _ 2 4 4 (by decide) (by decide) (by decide) (by decide)]
    norm_num
  · rw [seqSimilarity_eq _ _ 3 4 4 (by decide) (by decide) (by decide) (by decide)]
    norm_num
  · rw [MainPy.similarity_score, seqSimilarity_nil_nil]
  · rw [UpgPy.similarity_score, if_pos (Or.inl rfl)]

/-- C7 (amended): what the code's similarity signal does satisfy — every
non-empty string scores `1` against itself in both files, at every length
(the block-extension loops of `find_longest_match` extend over popular
characters, so the autojunk heuristic never degrades a self-comparison);
a score against the empty string on either side is `0` in both files when
the other side is non-empty; and `upgraded.py` (only) also returns `0` on
two empty strings.  Symmetry fails (see the counterexample). -/
theorem C7_amended (a b : List Char) (ha : a ≠ []) (hb : b ≠ []) :
    MainPy.similarity_score a a = 1 ∧ UpgPy.similarity_score a a = 1 ∧
    MainPy.similarity_score a [] = 0 ∧ MainPy.similarity_score [] b = 0 ∧
    UpgPy.similarity_score a [] = 0 ∧ UpgPy.similarity_score [] b = 0 ∧
    UpgPy.similarity_score [] [] = 0 := by
  refine ⟨?_, ?_, ?_, ?_, ?_, ?_, ?_⟩
  · rw [MainPy.similarity_score, seqSimilarity_self a ha]
  · rw [UpgPy.similarity_score, if_neg (by simp [ha]), seqSimilarity_self a ha]
  · rw [MainPy.similarity_score, seqSimilarity_nil_right a ha]
  · rw [MainPy.similarity_score, seqSimilarity_nil_left b hb]
  · rw [UpgPy.similarity_score, if_pos (Or.inr rfl)]
  · rw [UpgPy.similarity_score, if_pos (Or.inl rfl)]
  · rw [UpgPy.similarity_score, if_pos (Or.inl rfl)]

/-- C7 witness: the amended self-similarity at the concrete string `"x"`,
and at a 200-character string — the autojunk regime, where the popular
set is non-empty and the dynamic program alone finds nothing. -/
theorem C7_witness :
    ((("x").toList ≠ []) ∧ MainPy.similarity_score (("x").toList) (("x").toList) = 1) ∧
    (List.replicate 200 'a' ≠ ([] : List Char) ∧
      UpgPy.similarity_score (List.replicate 200 'a') (List.replicate 200 'a') = 1) :=
  ⟨⟨by decide, (C7_amended (("x").toList) (("x").toList) (by decide) (by decide)).1⟩,
   ⟨by simp, (C7_amended (List.replicate 200 'a') (("x").toList)
      (by simp) (by decide)).2.1⟩⟩

/-- C5 counterexample: `upgraded.py` strips `gif`, not `gifs`, so the
source name `"abc.gifs"` keeps its marker suffix and normalizes to
`"abc gifs"` — a residual `"gifs"` token survives in the core. -/
theorem C5_counterexample :
    UpgPy.extract_core_name (("abc.gifs").toList) = ("abc gifs").toList ∧
    ("gifs").toList ∈ splitWs (UpgPy.extract_core_name (("abc.gifs").toList)) := by
  have hcore : UpgPy.extract_core_name (("abc.gifs").toList) = ("abc gifs").toList :=
    UpgPy.extract_core_name_eval_upg _ (("abc.gifs").toList) _ (by decide) (by decide)
  exact ⟨hcore, by rw [hcore]; decide⟩

/-- C5 (amended): `main.py`'s alternation ends in `gifs`, so a trailing
`".gifs"` is stripped from every stem; `upgraded.py`'s ends in `gif`, so a
trailing `".gifs"` is *never* stripped there.  The enumerated container
set is handled case-insensitively in both files (`".MKV"` instance). -/
theorem C5_amended (s : List Char) :
    stripExt MainPy.nameExts (s ++ ('.' :: 'g' :: 'i' :: 'f' :: 's' :: [])) = s ∧
    stripExt UpgPy.nameExts (s ++ ('.' :: 'g' :: 'i' :: 'f' :: 's' :: [])) =
      s ++ ('.' :: 'g' :: 'i' :: 'f' :: 's' :: []) ∧
    MainPy.extract_core_name (("abc.MKV").toList) = ("abc").toList ∧
    UpgPy.extract_core_name (("abc.MKV").toList) = ("abc").toList := by
  refine ⟨MainPy.stripExt_gifs_main s, UpgPy.stripExt_gifs_upg s, ?_, ?_⟩
  · exact MainPy.extract_core_name_eval_main _ (("abc").toList) _ (by decide) (by decide)
  · exact UpgPy.extract_core_name_eval_upg _ (("abc").toList) _ (by decide) (by decide)

/-- C1 counterexample: in `main.py` both `"1080p HD.gifs"` and
`"HD 1080p.mp4"` normalize to the empty core, yet the pair scores
`37/50 = 0.74` (empty-vs-empty ratio `1` plus the unguarded containment
bonus) and is *matched* at the default strict threshold `0.7`. -/
theorem C1_counterexample :
    MainPy.extract_core_name (("1080p HD.gifs").toList) = [] ∧
    MainPy.extract_core_name (("HD 1080p.mp4").toList) = [] ∧
    MainPy.find_best_video_match (("1080p HD.gifs").toList) [("HD 1080p.mp4").toList]
      (7/10) = (some (("HD 1080p.mp4").toList), 37/50) := by
  have h1 : MainPy.extract_core_name (("1080p HD.gifs").toList) = [] :=
    MainPy.extract_core_name_eval_main _ (("1080p HD").toList) _ (by decide) (by decide)
  have h2 : MainPy.extract_core_name (("HD 1080p.mp4").toList) = [] :=
    MainPy.extract_core_name_eval_main _ (("HD 1080p").toList) _ (by decide) (by decide)
  have hst : MainPy.strictTotal [] [] = 37/50 := by
    rw [MainPy.strictTotal, MainPy.similarity_score, seqSimilarity_nil_nil,
      if_pos (by decide), strictWordOverlap, if_pos (by decide)]
    norm_num
  refine ⟨h1, h2, ?_⟩
  rw [MainPy.find_best_video_match,
    show ([("HD 1080p.mp4").toList].filter isVideoFile) = [("HD 1080p.mp4").toList]
      from by decide]
  simp only [List.map_cons, List.map_nil]
  rw [h1, h2, hst]
  rw [bestFold, if_pos ⟨show (0:ℚ) < 37/50 by norm_num, by norm_num⟩, bestFold]

/-- C1 (amended): the claim as stated holds of `upgraded.py`'s strict
strategy — a source whose core normalizes to the empty string gets strict
score `0` against everything and `find_best_video_match` returns
`(None, 0)` for every candidate collection and threshold; the guarded
similarity signal is `0` whenever either side is empty.  (`main.py`
violates the claim: see the counterexample.) -/
theorem C1_amended (folder : List Char) (files : List (List Char)) (t : ℚ)
    (h : UpgPy.extract_core_name folder = []) :
    UpgPy.find_best_video_match folder files t = (none, 0) ∧
    (∀ vc, UpgPy.strictTotal [] vc = 0) ∧
    (∀ b, UpgPy.similarity_score [] b = 0 ∧ UpgPy.similarity_score b [] = 0) := by
  refine ⟨UpgPy.find_best_empty_core folder files t h,
    fun vc => UpgPy.strictTotal_empty_left vc, fun b => ⟨?_, ?_⟩⟩
  · rw [UpgPy.similarity_score, if_pos (Or.inl rfl)]
  · rw [UpgPy.similarity_score, if_pos (Or.inr rfl)]

/-- C1 witness: the junk-only source `"1080p HD.gif"` normalizes to the
empty core in `upgraded.py` and matches nothing there. -/
theorem C1_witness :
    UpgPy.extract_core_name (("1080p HD.gif").toList) = [] ∧
    UpgPy.find_best_video_match (("1080p HD.gif").toList) [("HD 1080p.mp4").toList]
      (7/10) = (none, 0) := by
  have hcore : UpgPy.extract_core_name (("1080p HD.gif").toList) = [] :=
    UpgPy.extract_core_name_eval_upg _ (("1080p HD").toList) _ (by decide) (by decide)
  exact ⟨hcore, (C1_amended (("1080p HD.gif").toList) [("HD 1080p.mp4").toList]
    (7/10) hcore).1⟩

/-- C2 counterexample: underscores are word characters (`\w`), so
`specialsToSpace` keeps them and `"Great_Movie.mp4"` normalizes to
`"great_movie"`, not `"great movie"`; moreover `movie` is a junk term in
`main.py`, so the source normalizes to `"great"`, not `"great movie"`;
the scenario pair scores `221/400 = 0.5525 < 0.7` and is *not* returned. -/
theorem C2_counterexample :
    specialsToSpace ['_'] = ['_'] ∧
    MainPy.extract_core_name (("Great_Movie.mp4").toList) = ("great_movie").toList ∧
    MainPy.extract_core_name (("Great Movie [2019] 1080p.gifs").toList) =
      ("great").toList ∧
    MainPy.find_best_video_match (("Great Movie [2019] 1080p.gifs").toList)
      [("Great_Movie.mp4").toList] (7/10) = (none, 0) := by
  have h1 : MainPy.extract_core_name (("Great_Movie.mp4").toList) =
      ("great_movie").toList :=
    MainPy.extract_core_name_eval_main _ (("Great_Movie").toList) _ (by decide) (by decide)
  have h2 : MainPy.extract_core_name (("Great Movie [2019] 1080p.gifs").toList) =
      ("great").toList :=
    MainPy.extract_core_name_eval_main _ (("Great Movie  1080p").toList) _
      (by decide) (by decide)
  have hsim : seqSimilarity (("great").toList) (("great_movie").toList) = 5/8 := by
    rw [seqSimilarity_eq _ _ 5 5 11 (by decide) (by decide) (by decide) (by decide)]
    norm_num
  have hov : strictWordOverlap (("great").toList) (("great_movie").toList) = 0 := by
    rw [strictWordOverlap, if_neg (by decide),
      show (((splitWs (("great").toList)).toFinset ∩
        (splitWs (("great_movie").toList)).toFinset).card) = 0 from by decide,
      show (((splitWs (("great").toList)).toFinset ∪
        (splitWs (("great_movie").toList)).toFinset).card) = 2 from by decide]
    norm_num
  have hst : MainPy.strictTotal (("great").toList) (("great_movie").toList) =
      221/400 := by
    rw [MainPy.strictTotal, MainPy.similarity_score, hsim, if_pos (by decide), hov]
    norm_num
  refine ⟨by decide, h1, h2, ?_⟩
  rw [MainPy.find_best_singleton_main _ _ _ (by decide), h1, h2, hst,
    if_neg (by rintro ⟨-, hcon⟩; norm_num at hcon)]

/-- C2 (amended): the replacement rule of both normalizers sends every
character that is neither a *word* character (alphanumeric or underscore)
nor whitespace to a space; the underscore is a word character and
survives.  On ASCII names — where `str.lower` never produces characters
outside the word-or-space classes (on `İ` it produces the combining dot
`U+0307`, which is neither) — every core therefore consists of word
characters and spaces only. -/
theorem C2_amended (x : List Char) (hx : ∀ c ∈ x, c.toNat < 128) :
    pyIsWord '_' = true ∧
    (∀ c ∈ MainPy.extract_core_name x, pyIsWord c = true ∨ c = ' ') ∧
    (∀ c ∈ UpgPy.extract_core_name x, pyIsWord c = true ∨ c = ' ') := by
  have hx304 : ∀ c ∈ x, c.toNat ≠ 304 := fun c hc => by have := hx c hc; omega
  refine ⟨by decide, ?_, ?_⟩
  · intro c hc
    rw [MainPy.extract_core_name] at hc
    rcases norm_chars _ c (MainPy.stage_no304_main x hx304) hc with ⟨hw, _⟩ | hsp
    · exact Or.inl hw
    · exact Or.inr hsp
  · intro c hc
    rw [UpgPy.extract_core_name] at hc
    rcases norm_chars _ c (UpgPy.stage_no304_upg x hx304) hc with ⟨hw, _⟩ | hsp
    · exact Or.inl hw
    · exact Or.inr hsp

/-- C2 witness: the underscore surviving in the core of
`"Great_Movie.mp4"` is a word character. -/
theorem C2_witness : pyIsWord '_' = true ∨ '_' = ' ' := by
  have hcore : MainPy.extract_core_name (("Great_Movie.mp4").toList) =
      ("great_movie").toList :=
    MainPy.extract_core_name_eval_main _ (("Great_Movie").toList) _ (by decide) (by decide)
  exact (C2_amended (("Great_Movie.mp4").toList) (by decide)).2.1 '_' (by rw [hcore]; decide)

/-- C8 counterexample: `main.py` removes only `[...]` groups — the
parenthesized `(qqq)` survives normalization there (`"abc qqq"`), while
`upgraded.py` removes it (`"abc"`). -/
theorem C8_counterexample :
    MainPy.extract_core_name (("abc (qqq).mp4").toList) = ("abc qqq").toList ∧
    UpgPy.extract_core_name (("abc (qqq).mp4").toList) = ("abc").toList := by
  constructor
  · exact MainPy.extract_core_name_eval_main _ (("abc (qqq)").toList) _ (by decide) (by decide)
  · exact UpgPy.extract_core_name_eval_upg _ (("abc  ").toList) _ (by decide) (by decide)

/-- C8 (amended): a `[y]` group (no closer or newline inside) is removed
by both files' bracket stage; a `(y)` group is removed (as one space) by
`upgraded.py` but passed through verbatim by `main.py`. -/
theorem C8_amended (y z : List Char)
    (hy : ∀ c ∈ y, c ≠ ']' ∧ c ≠ ')' ∧ c ≠ '\n') (hy2 : ∀ c ∈ y, c ≠ '[') :
    stripSqBrackets ('[' :: (y ++ ']' :: z)) = stripSqBrackets z ∧
    stripBrackets2 ('[' :: (y ++ ']' :: z)) = ' ' :: stripBrackets2 z ∧
    stripBrackets2 ('(' :: (y ++ ')' :: z)) = ' ' :: stripBrackets2 z ∧
    stripSqBrackets ('(' :: (y ++ ')' :: z)) = '(' :: (y ++ ')' :: stripSqBrackets z) := by
  refine ⟨stripSqBrackets_group y z (fun c hc => ⟨(hy c hc).1, (hy c hc).2.2⟩),
    stripBrackets2_group y z hy '[' (Or.inl rfl) ']' (Or.inl rfl),
    stripBrackets2_group y z hy '(' (Or.inr rfl) ')' (Or.inr rfl), ?_⟩
  have hall : ∀ c ∈ '(' :: y ++ [')'], c ≠ '[' := by
    intro c hc
    rcases List.mem_cons.mp hc with rfl | hc2
    · decide
    · rcases List.mem_append.mp hc2 with hcy | hcs
      · exact hy2 c hcy
      · have hr := List.mem_singleton.mp hcs
        subst hr
        decide
  have h4 := stripSqBrackets_through ('(' :: y ++ [')']) hall z
  calc stripSqBrackets ('(' :: (y ++ ')' :: z))
      = stripSqBrackets (('(' :: y ++ [')']) ++ z) := by
        congr 1
        simp
    _ = ('(' :: y ++ [')']) ++ stripSqBrackets z := h4
    _ = '(' :: (y ++ ')' :: stripSqBrackets z) := by simp

/-- C8 witness: the amended group behavior at `y = "ab"`, `z = "cd"`. -/
theorem C8_witness :
    stripSqBrackets ('[' :: (("ab").toList ++ ']' :: ("cd").toList)) = ("cd").toList ∧
    stripBrackets2 ('(' :: (("ab").toList ++ ')' :: ("cd").toList)) =
      ' ' :: ("cd").toList := by
  have h := C8_amended (("ab").toList) (("cd").toList) (by decide) (by decide)
  constructor
  · rw [h.1]
    exact stripSqBrackets_id _ (by decide)
  · rw [h.2.2.1]
    rw [stripBrackets2_id _ (by decide)]

/-- C4 counterexample: the relaxed word signal divides by
`max(|folder words|, |video words|)`, not by the union size — on the word
sets `{aa,bb,cc}` and `{bb,ee,aa}` it yields `2/3` where the Jaccard index
is `1/2`; the difference is observable: the pair clears `main.py`'s
hard-coded relaxed cutoff `0.6` only because of the non-Jaccard signal. -/
theorem C4_counterexample :
    relaxedWordSim (("aa bb cc").toList) (("bb ee aa").toList) = 2/3 ∧
    jaccardSpec (("aa bb cc").toList) (("bb ee aa").toList) = 1/2 ∧
    MainPy.find_videos_by_content_similarity (("aa bb cc.gifs").toList)
      [("bb ee aa.mp4").toList] = (some (("bb ee aa.mp4").toList), 2/3) := by
  have hws : relaxedWordSim (("aa bb cc").toList) (("bb ee aa").toList) = 2/3 := by
    rw [relaxedWordSim, if_neg (by decide),
      show (((splitWs (("aa bb cc").toList)).toFinset ∩
        (splitWs (("bb ee aa").toList)).toFinset).card) = 2 from by decide,
      show (max ((splitWs (("aa bb cc").toList)).toFinset.card)
        ((splitWs (("bb ee aa").toList)).toFinset.card)) = 3 from by decide]
    norm_num
  have hjac : jaccardSpec (("aa bb cc").toList) (("bb ee aa").toList) = 1/2 := by
    rw [jaccardSpec, if_neg (by decide),
      show (((splitWs (("aa bb cc").toList)).toFinset ∩
        (splitWs (("bb ee aa").toList)).toFinset).card) = 2 from by decide,
      show (((splitWs (("aa bb cc").toList)).toFinset ∪
        (splitWs (("bb ee aa").toList)).toFinset).card) = 4 from by decide]
    norm_num
  have hcf : relaxedCleanFolder (("aa bb cc.gifs").toList) = ("aa bb cc").toList :=
    relaxedCleanFolder_eval _ (("aa bb cc").toList) _ (by decide) (by decide)
  have hcv : MainPy.relaxedCleanVideo (("bb ee aa.mp4").toList) = ("bb ee aa").toList :=
    MainPy.relaxedCleanVideo_eval_main _ (("bb ee aa").toList) _ (by decide) (by decide)
  have hs1 : seqSimilarity (("aa bb cc").toList) (("bb ee aa").toList) = 3/8 := by
    rw [seqSimilarity_eq _ _ 3 8 8 (by decide) (by decide) (by decide) (by decide)]
    norm_num
  have hs2 : seqSimilarity (noSpace (("aa bb cc").toList))
      (noSpace (("bb ee aa").toList)) = 1/3 := by
    rw [show noSpace (("aa bb cc").toList) = ("aabbcc").toList from by decide,
      show noSpace (("bb ee aa").toList) = ("bbeeaa").toList from by decide,
      seqSimilarity_eq _ _ 2 6 6 (by decide) (by decide) (by decide) (by decide)]
    norm_num
  have hrt : MainPy.relaxedTotal (("aa bb cc.gifs").toList)
      (("bb ee aa.mp4").toList) = 2/3 := by
    rw [MainPy.relaxedTotal]
    rw [hcf, hcv, hs1, hs2, hws,
      max_eq_left (by norm_num : (1:ℚ)/3 ≤ 3/8),
      max_eq_right (by norm_num : (3:ℚ)/8 ≤ 2/3)]
  refine ⟨hws, hjac, ?_⟩
  rw [MainPy.find_videos_singleton_main _ _ (by decide), hrt, if_pos (by norm_num)]

/-- C4 (amended): the word signal of the *strict* scorer is exactly the
spec's Jaccard index; the word signal of the *relaxed* scorer divides the
intersection size by the larger set size instead, hence is always at least
the Jaccard index (and can strictly exceed it: see the counterexample). -/
theorem C4_amended (a b : List Char) :
    strictWordOverlap a b = jaccardSpec a b ∧
    jaccardSpec a b ≤ relaxedWordSim a b := by
  constructor
  · rfl
  · rw [jaccardSpec, relaxedWordSim]
    by_cases hemp : (splitWs a).toFinset = ∅ ∨ (splitWs b).toFinset = ∅
    · rw [if_pos hemp, if_pos hemp]
    · rw [if_neg hemp, if_neg hemp]
      push_neg at hemp
      have hb1 : 0 < (splitWs a).toFinset.card :=
        Finset.card_pos.mpr (Finset.nonempty_iff_ne_empty.mpr hemp.1)
      have hmax : 0 < max (splitWs a).toFinset.card (splitWs b).toFinset.card :=
        lt_of_lt_of_le hb1 (le_max_left _ _)
      have hle : max (splitWs a).toFinset.card (splitWs b).toFinset.card ≤
          ((splitWs a).toFinset ∪ (splitWs b).toFinset).card :=
        max_le (Finset.card_le_card Finset.subset_union_left)
          (Finset.card_le_card Finset.subset_union_right)
      have hnum : (0:ℚ) ≤ (((splitWs a).toFinset ∩ (splitWs b).toFinset).card : ℚ) := by
        positivity
      have hmaxQ : (0:ℚ) < ((max (splitWs a).toFinset.card (splitWs b).toFinset.card : ℕ) : ℚ) := by
        exact_mod_cast hmax
      have hleQ : ((max (splitWs a).toFinset.card (splitWs b).toFinset.card : ℕ) : ℚ) ≤
          (((splitWs a).toFinset ∪ (splitWs b).toFinset).card : ℚ) := by
        exact_mod_cast hle
      exact div_le_div_of_nonneg_left hnum hmaxQ hleQ

/-- C3 counterexample: in `main.py` the relaxed cutoff is the hard-coded
`0.6 = 0.65 − 0.05` compared *strictly*, so a pair whose relaxed maximum
is exactly `0.6` is rejected and the composite returns no match. -/
theorem C3_counterexample :
    MainPy.relaxedTotal (("abcxyzw.gifs").toList) (("abc.mp4").toList) =
      65/100 - 5/100 ∧
    MainPy.selectBest (("abcxyzw.gifs").toList) [("abc.mp4").toList] = (none, 0) := by
  have hcf : relaxedCleanFolder (("abcxyzw.gifs").toList) = ("abcxyzw").toList :=
    relaxedCleanFolder_eval _ (("abcxyzw").toList) _ (by decide) (by decide)
  have hcv : MainPy.relaxedCleanVideo (("abc.mp4").toList) = ("abc").toList :=
    MainPy.relaxedCleanVideo_eval_main _ (("abc").toList) _ (by decide) (by decide)
  have hs1 : seqSimilarity (("abcxyzw").toList) (("abc").toList) = 3/5 := by
    rw [seqSimilarity_eq _ _ 3 7 3 (by decide) (by decide) (by decide) (by decide)]
    norm_num
  have hs2 : seqSimilarity (noSpace (("abcxyzw").toList))
      (noSpace (("abc").toList)) = 3/5 := by
    rw [show noSpace (("abcxyzw").toList) = ("abcxyzw").toList from by decide,
      show noSpace (("abc").toList) = ("abc").toList from by decide, hs1]
  have hws : relaxedWordSim (("abcxyzw").toList) (("abc").toList) = 0 := by
    rw [relaxedWordSim, if_neg (by decide),
      show (((splitWs (("abcxyzw").toList)).toFinset ∩
        (splitWs (("abc").toList)).toFinset).card) = 0 from by decide,
      show (max ((splitWs (("abcxyzw").toList)).toFinset.card)
        ((splitWs (("abc").toList)).toFinset.card)) = 1 from by decide]
    norm_num
  have hrt : MainPy.relaxedTotal (("abcxyzw.gifs").toList) (("abc.mp4").toList) =
      3/5 := by
    rw [MainPy.relaxedTotal]
    rw [hcf, hcv, hs1, hs2, hws, max_self, max_eq_left (by norm_num : (0:ℚ) ≤ 3/5)]
  have hcoreF : MainPy.extract_core_name (("abcxyzw.gifs").toList) =
      ("abcxyzw").toList :=
    MainPy.extract_core_name_eval_main _ (("abcxyzw").toList) _ (by decide) (by decide)
  have hcoreC : MainPy.extract_core_name (("abc.mp4").toList) = ("abc").toList :=
    MainPy.extract_core_name_eval_main _ (("abc").toList) _ (by decide) (by decide)
  have hov : strictWordOverlap (("abcxyzw").toList) (("abc").toList) = 0 := by
    rw [strictWordOverlap, if_neg (by decide),
      show (((splitWs (("abcxyzw").toList)).toFinset ∩
        (splitWs (("abc").toList)).toFinset).card) = 0 from by decide,
      show (((splitWs (("abcxyzw").toList)).toFinset ∪
        (splitWs (("abc").toList)).toFinset).card) = 2 from by decide]
    norm_num
  have hstr : MainPy.strictTotal (("abcxyzw").toList) (("abc").toList) = 27/50 := by
    rw [MainPy.strictTotal, MainPy.similarity_score, hs1, if_pos (by decide), hov]
    norm_num
  have hfb : MainPy.find_best_video_match (("abcxyzw.gifs").toList)
      [("abc.mp4").toList] (65/100) = (none, 0) := by
    apply MainPy.find_best_none_main
    intro f hf _
    have hfv := List.mem_singleton.mp hf
    subst hfv
    rw [hcoreF, hcoreC, hstr]
    norm_num
  refine ⟨by rw [hrt]; norm_num, ?_⟩
  rw [MainPy.selectBest, hfb]
  show MainPy.find_videos_by_content_similarity (("abcxyzw.gifs").toList)
    [("abc.mp4").toList] = (none, 0)
  apply MainPy.find_videos_none_main
  intro f hf _
  have hfv := List.mem_singleton.mp hf
  subst hfv
  rw [hrt]
  norm_num

/-- C3 (amended): `upgraded.py`'s composite satisfies the claim — the
strict strategy is consulted first; on strict failure the relaxed strategy
is evaluated at `threshold − 0.05` and a relaxed maximum *equal* to that
cutoff is returned (comparison `>=`), with the relaxed score; if both fail
the result is `(None, 0)`.  `main.py` instead compares its relaxed maximum
strictly against the hard-coded `0.6`, rejecting ties (counterexample). -/
theorem C3_amended (folder c : List Char) (pre post files : List (List Char)) (t : ℚ) :
    (∀ f s, UpgPy.find_best_video_match folder files t = (some f, s) →
      UpgPy.selectBest folder files t = (some f, s)) ∧
    ((∀ f ∈ pre ++ c :: post, isVideoFile f = true →
        UpgPy.strictTotal (UpgPy.extract_core_name folder)
          (UpgPy.extract_core_name f) < t) →
      isVideoFile c = true →
      t - 1/20 ≤ UpgPy.relaxedTotal folder c →
      (∀ f ∈ pre, isVideoFile f = true →
        UpgPy.relaxedTotal folder f < UpgPy.relaxedTotal folder c) →
      (∀ f ∈ post, isVideoFile f = true →
        UpgPy.relaxedTotal folder f ≤ UpgPy.relaxedTotal folder c) →
      UpgPy.selectBest folder (pre ++ c :: post) t =
        (some c, UpgPy.relaxedTotal folder c)) ∧
    ((∀ f ∈ files, isVideoFile f = true →
        UpgPy.strictTotal (UpgPy.extract_core_name folder)
          (UpgPy.extract_core_name f) < t) →
      (∀ f ∈ files, isVideoFile f = true →
        UpgPy.relaxedTotal folder f < t - 1/20) →
      UpgPy.selectBest folder files t = (none, 0)) := by
  refine ⟨?_, ?_, ?_⟩
  · intro f s h
    rw [UpgPy.selectBest, h]
  · intro hstrict hc ht h1 h2
    rw [UpgPy.selectBest, UpgPy.find_best_none_upg _ _ _ hstrict]
    show UpgPy.find_videos_by_content_similarity folder (pre ++ c :: post)
      (t - 1/20) = (some c, UpgPy.relaxedTotal folder c)
    exact UpgPy.find_videos_first_max_upg folder pre post c (t - 1/20) hc ht h1 h2
  · intro hstrict hrel
    rw [UpgPy.selectBest, UpgPy.find_best_none_upg _ _ _ hstrict]
    show UpgPy.find_videos_by_content_similarity folder files (t - 1/20) = (none, 0)
    exact UpgPy.find_videos_none_upg folder files (t - 1/20) hrel

/-- C3 witness: on the pair whose relaxed maximum ties the fallback cutoff
(`3/5 = 13/20 − 1/20`), `upgraded.py`'s composite returns the match with
the relaxed score. -/
theorem C3_witness :
    UpgPy.selectBest (("abcxyzw.gifs").toList) [("abc.mp4").toList] (13/20) =
      (some (("abc.mp4").toList), 3/5) := by
  have hcoreF : UpgPy.extract_core_name (("abcxyzw.gifs").toList) =
      ("abcxyzw gifs").toList :=
    UpgPy.extract_core_name_eval_upg _ (("abcxyzw.gifs").toList) _ (by decide) (by decide)
  have hcoreC : UpgPy.extract_core_name (("abc.mp4").toList) = ("abc").toList :=
    UpgPy.extract_core_name_eval_upg _ (("abc").toList) _ (by decide) (by decide)
  have hsimU : seqSimilarity (("abcxyzw gifs").toList) (("abc").toList) = 2/5 := by
    rw [seqSimilarity_eq _ _ 3 12 3 (by decide) (by decide) (by decide) (by decide)]
    norm_num
  have hovU : strictWordOverlap (("abcxyzw gifs").toList) (("abc").toList) = 0 := by
    rw [strictWordOverlap, if_neg (by decide),
      show (((splitWs (("abcxyzw gifs").toList)).toFinset ∩
        (splitWs (("abc").toList)).toFinset).card) = 0 from by decide,
      show (((splitWs (("abcxyzw gifs").toList)).toFinset ∪
        (splitWs (("abc").toList)).toFinset).card) = 3 from by decide]
    norm_num
  have hstrU : UpgPy.strictTotal (("abcxyzw gifs").toList) (("abc").toList) =
      11/25 := by
    rw [UpgPy.strictTotal, UpgPy.similarity_score, if_neg (by decide), hsimU,
      if_pos ⟨by decide, by decide, by decide⟩, hovU]
    norm_num
  have hcf : relaxedCleanFolder (("abcxyzw.gifs").toList) = ("abcxyzw").toList :=
    relaxedCleanFolder_eval _ (("abcxyzw").toList) _ (by decide) (by decide)
  have hcv : UpgPy.relaxedCleanVideo (("abc.mp4").toList) = ("abc").toList :=
    UpgPy.relaxedCleanVideo_eval_upg _ (("abc").toList) _ (by decide) (by decide)
  have hs1 : seqSimilarity (("abcxyzw").toList) (("abc").toList) = 3/5 := by
    rw [seqSimilarity_eq _ _ 3 7 3 (by decide) (by decide) (by decide) (by decide)]
    norm_num
  have hg1 : UpgPy.similarity_score (("abcxyzw").toList) (("abc").toList) = 3/5 := by
    rw [UpgPy.similarity_score, if_neg (by decide), hs1]
  have hg2 : UpgPy.similarity_score (noSpace (("abcxyzw").toList))
      (noSpace (("abc").toList)) = 3/5 := by
    rw [show noSpace (("abcxyzw").toList) = ("abcxyzw").toList from by decide,
      show noSpace (("abc").toList) = ("abc").toList from by decide, hg1]
  have hwsU : relaxedWordSim (("abcxyzw").toList) (("abc").toList) = 0 := by
    rw [relaxedWordSim, if_neg (by decide),
      show (((splitWs (("abcxyzw").toList)).toFinset ∩
        (splitWs (("abc").toList)).toFinset).card) = 0 from by decide,
      show (max ((splitWs (("abcxyzw").toList)).toFinset.card)
        ((splitWs (("abc").toList)).toFinset.card)) = 1 from by decide]
    norm_num
  have hrt : UpgPy.relaxedTotal (("abcxyzw.gifs").toList) (("abc.mp4").toList) =
      3/5 := by
    rw [UpgPy.relaxedTotal]
    rw [hcf, hcv, hg1, hg2, hwsU, max_self, max_eq_left (by norm_num : (0:ℚ) ≤ 3/5)]
  have happ := (C3_amended (("abcxyzw.gifs").toList) (("abc.mp4").toList) [] []
      [("abc.mp4").toList] (13/20)).2.1
    (by
      intro f hf _
      have hfv : f = ("abc.mp4").toList := by
        rcases List.mem_append.mp hf with h0 | h0
        · exact absurd h0 (List.not_mem_nil f)
        · exact List.mem_singleton.mp h0
      subst hfv
      rw [hcoreF, hcoreC, hstrU]
      norm_num)
    (by decide)
    (by rw [hrt]; norm_num)
    (by intro f hf _; exact absurd hf (List.not_mem_nil f))
    (by intro f hf _; exact absurd hf (List.not_mem_nil f))
  rw [hrt] at happ
  exact happ

/-- C9: in the strict strategy of both files the best-match update fires
only on a *strictly* greater score, so among tied maximal candidates at or
above the threshold the one enumerated first is returned. -/
theorem C9_first_of_ties (folder c : List Char) (pre post : List (List Char)) (t : ℚ)
    (hc : isVideoFile c = true)
    (hmt : t ≤ MainPy.strictTotal (MainPy.extract_core_name folder)
      (MainPy.extract_core_name c))
    (hmpos : 0 < MainPy.strictTotal (MainPy.extract_core_name folder)
      (MainPy.extract_core_name c))
    (hm1 : ∀ f ∈ pre, isVideoFile f = true →
      MainPy.strictTotal (MainPy.extract_core_name folder) (MainPy.extract_core_name f) <
        MainPy.strictTotal (MainPy.extract_core_name folder) (MainPy.extract_core_name c))
    (hm2 : ∀ f ∈ post, isVideoFile f = true →
      MainPy.strictTotal (MainPy.extract_core_name folder) (MainPy.extract_core_name f) ≤
        MainPy.strictTotal (MainPy.extract_core_name folder) (MainPy.extract_core_name c))
    (hut : t ≤ UpgPy.strictTotal (UpgPy.extract_core_name folder)
      (UpgPy.extract_core_name c))
    (hupos : 0 < UpgPy.strictTotal (UpgPy.extract_core_name folder)
      (UpgPy.extract_core_name c))
    (hu1 : ∀ f ∈ pre, isVideoFile f = true →
      UpgPy.strictTotal (UpgPy.extract_core_name folder) (UpgPy.extract_core_name f) <
        UpgPy.strictTotal (UpgPy.extract_core_name folder) (UpgPy.extract_core_name c))
    (hu2 : ∀ f ∈ post, isVideoFile f = true →
      UpgPy.strictTotal (UpgPy.extract_core_name folder) (UpgPy.extract_core_name f) ≤
        UpgPy.strictTotal (UpgPy.extract_core_name folder) (UpgPy.extract_core_name c)) :
    MainPy.find_best_video_match folder (pre ++ c :: post) t =
      (some c, MainPy.strictTotal (MainPy.extract_core_name folder)
        (MainPy.extract_core_name c)) ∧
    UpgPy.find_best_video_match folder (pre ++ c :: post) t =
      (some c, UpgPy.strictTotal (UpgPy.extract_core_name folder)
        (UpgPy.extract_core_name c)) :=
  ⟨MainPy.find_best_first_max_main folder pre post c t hc hmt hmpos hm1 hm2,
   UpgPy.find_best_first_max_upg folder pre post c t hc hut hupos hu1 hu2⟩

/-- C9 witness: `"aaa.mp4"` and `"aaa.mkv"` tie exactly in both files
against the source `"aaa.gifs"`; the first is returned with the tied
score (`47/50` in `main.py`, `337/550` in `upgraded.py`). -/
theorem C9_witness :
    MainPy.find_best_video_match (("aaa.gifs").toList)
      [("aaa.mp4").toList, ("aaa.mkv").toList] (2/5) =
      (some (("aaa.mp4").toList), 47/50) ∧
    UpgPy.find_best_video_match (("aaa.gifs").toList)
      [("aaa.mp4").toList, ("aaa.mkv").toList] (2/5) =
      (some (("aaa.mp4").toList), 337/550) := by
  have hF : MainPy.extract_core_name (("aaa.gifs").toList) = ("aaa").toList :=
    MainPy.extract_core_name_eval_main _ (("aaa").toList) _ (by decide) (by decide)
  have hC : MainPy.extract_core_name (("aaa.mp4").toList) = ("aaa").toList :=
    MainPy.extract_core_name_eval_main _ (("aaa").toList) _ (by decide) (by decide)
  have hK : MainPy.extract_core_name (("aaa.mkv").toList) = ("aaa").toList :=
    MainPy.extract_core_name_eval_main _ (("aaa").toList) _ (by decide) (by decide)
  have hFU : UpgPy.extract_core_name (("aaa.gifs").toList) = ("aaa gifs").toList :=
    UpgPy.extract_core_name_eval_upg _ (("aaa.gifs").toList) _ (by decide) (by decide)
  have hCU : UpgPy.extract_core_name (("aaa.mp4").toList) = ("aaa").toList :=
    UpgPy.extract_core_name_eval_upg _ (("aaa").toList) _ (by decide) (by decide)
  have hKU : UpgPy.extract_core_name (("aaa.mkv").toList) = ("aaa").toList :=
    UpgPy.extract_core_name_eval_upg _ (("aaa").toList) _ (by decide) (by decide)
  have hsim : seqSimilarity (("aaa").toList) (("aaa").toList) = 1 :=
    seqSimilarity_self (("aaa").toList) (by decide)
  have hov : strictWordOverlap (("aaa").toList) (("aaa").toList) = 1 := by
    rw [strictWordOverlap, if_neg (by decide),
      show (((splitWs (("aaa").toList)).toFinset ∩
        (splitWs (("aaa").toList)).toFinset).card) = 1 from by decide,
      show (((splitWs (("aaa").toList)).toFinset ∪
        (splitWs (("aaa").toList)).toFinset).card) = 1 from by decide]
    norm_num
  have hstr : MainPy.strictTotal (("aaa").toList) (("aaa").toList) = 47/50 := by
    rw [MainPy.strictTotal, MainPy.similarity_score, hsim, if_pos (by decide), hov]
    norm_num
  have hsimU : seqSimilarity (("aaa gifs").toList) (("aaa").toList) = 6/11 := by
    rw [seqSimilarity_eq _ _ 3 8 3 (by decide) (by decide) (by decide) (by decide)]
    norm_num
  have hovU : strictWordOverlap (("aaa gifs").toList) (("aaa").toList) = 1/2 := by
    rw [strictWordOverlap, if_neg (by decide),
      show (((splitWs (("aaa gifs").toList)).toFinset ∩
        (splitWs (("aaa").toList)).toFinset).card) = 1 from by decide,
      show (((splitWs (("aaa gifs").toList)).toFinset ∪
        (splitWs (("aaa").toList)).toFinset).card) = 2 from by decide]
    norm_num
  have hstrU : UpgPy.strictTotal (("aaa gifs").toList) (("aaa").toList) =
      337/550 := by
    rw [UpgPy.strictTotal, UpgPy.similarity_score, if_neg (by decide), hsimU,
      if_pos ⟨by decide, by decide, by decide⟩, hovU]
    norm_num
  have h := C9_first_of_ties (("aaa.gifs").toList) (("aaa.mp4").toList) []
    [("aaa.mkv").toList] (2/5) (by decide)
    (by rw [hF, hC, hstr]; norm_num)
    (by rw [hF, hC, hstr]; norm_num)
    (by intro f hf _; exact absurd hf (List.not_mem_nil f))
    (by
      intro f hf _
      have hfv := List.mem_singleton.mp hf
      subst hfv
      rw [hK, hC])
    (by rw [hFU, hCU, hstrU]; norm_num)
    (by rw [hFU, hCU, hstrU]; norm_num)
    (by intro f hf _; exact absurd hf (List.not_mem_nil f))
    (by
      intro f hf _
      have hfv := List.mem_singleton.mp hf
      subst hfv
      rw [hKU, hCU])
  rw [hF, hC, hstr, hFU, hCU, hstrU] at h
  exact h
